import Mathlib

/-!
# The keyterm tokenizer of `tokenizer.h`

A shallow embedding of `rsplit`, `startswith` and `tokenize` from
`src/core/tokenizer_source/tokenizer.h`, and theorems about them.

Modelling conventions.

* `std::string` is a list of characters (`Str`); `operator<` on strings is the
  lexicographic order on character codes (`strLt`).
* `std::set<string>` is a strictly increasing list of strings; `std::map<string, V>` is
  a list of pairs with strictly increasing keys.  `setInsert`, `mapSet` insert at the
  sorted position, so iteration over the model visits elements in the order the C++
  containers do.
* `size_t` is 64 bits wide; `npos` is `2 ^ 64 - 1`; the sum the source forms with the
  result of `rfind` wraps around when `rfind` gave `npos` (`rfindEnd`).  Strings are
  assumed shorter than `2 ^ 32` characters, so the `unsigned int` loop counters do not
  wrap.
* `std::string::substr` throws `std::out_of_range` when the start position is past the
  end; an `assert` that fails aborts.  Both are values of `Fault`.
* The recursion of `tokenize` on a prefix is bounded by a fuel argument; `tokenize` starts
  with fuel `text.length + 1`.  A recursive call receives a prefix of the text it was
  called from, so the fuel runs out only when some call passes on its whole text, and
  then the C++ recursion does not end: this is `Fault.unboundedRecursion`.  With distinct
  keyterms this does not happen and the result does not depend on the fuel
  (`tokenizeFuel_terminates`, `tokenizeFuel_stable`).
-/

namespace Tokenizer

/-- A `std::string`. -/
abbrev Str := List Char

/-- The ways a call can end without returning tokens. -/
inductive Fault where
  /-- `std::out_of_range` thrown by `substr`. -/
  | outOfRange
  /-- One of the two `assert`s of the candidate loop failed. -/
  | assertionFailed
  /-- The recursion on the prefix does not end. -/
  | unboundedRecursion
  /-- Modelled from the spec: the `InvalidVocabulary` condition of its section 7, which the
  specification asks for at the start of `tokenize`; no line of the source raises it. -/
  | invalidVocabulary
  deriving DecidableEq, Repr

deriving instance DecidableEq for Except

/-- The value `std::string::npos` for a 64-bit `size_t`. -/
def npos : Nat := 2 ^ 64 - 1

/-! ## Strings -/

/-- The order `operator<` of `std::string`: lexicographic on character codes. -/
def strLt : Str → Str → Bool
  | [], [] => false
  | [], _ :: _ => true
  | _ :: _, [] => false
  | a :: as, b :: bs =>
    if a.toNat < b.toNat then true
    else if b.toNat < a.toNat then false
    else strLt as bs

/-- The call `a.compare(0, b.length(), b) == 0`: the first `b.length()` characters of `a`
(fewer when `a` is shorter) are `b`. -/
def startswith (a b : Str) : Bool :=
  decide (a.take b.length = b)

/-- The method `haystack.find(needle)`: the first position at which `needle` occurs,
`none` for `npos`. -/
def find (needle : Str) : Str → Option Nat
  | [] => if needle = [] then some 0 else none
  | c :: cs =>
    if startswith (c :: cs) needle then some 0
    else (find needle cs).map (· + 1)

/-- The method `haystack.rfind(needle)`: the last position at which `needle` occurs,
`none` for `npos`. -/
def rfindPos (needle : Str) : Str → Option Nat
  | [] => if needle = [] then some 0 else none
  | c :: cs =>
    match rfindPos needle cs with
    | some p => some (p + 1)
    | none => if startswith (c :: cs) needle then some 0 else none

/-- The `size_t` returned by `sequence.rfind(term)`. -/
def rfind (sequence term : Str) : Nat :=
  (rfindPos term sequence).getD npos

/-- The method `s.substr(pos, n)`: throws when `pos > s.size()`, otherwise the
`min n (s.size() - pos)` characters from `pos` on. -/
def substr (s : Str) (pos n : Nat) : Except Fault Str :=
  if pos > s.length then .error .outOfRange
  else .ok ((s.drop pos).take (min n (s.length - pos)))

/-- The `size_t` value of `sequence.rfind(term) + term.size()` (line 14).  A position at
which `term` was found plus `term.size()` is at most `sequence.size()` and does not wrap;
`npos + term.size()` wraps around. -/
def rfindEnd (sequence term : Str) : Nat :=
  match rfindPos term sequence with
  | some p => p + term.length
  | none => (npos + term.length) % 2 ^ 64

/-- The function `rsplit` (lines 12-16). -/
def rsplit (sequence term : Str) : Except Fault (Str × Str) :=
  match substr sequence 0 (rfind sequence term) with
  | .error e => .error e
  | .ok pre =>
    match substr sequence (rfindEnd sequence term) sequence.length with
    | .error e => .error e
    | .ok suffix => .ok (pre, suffix)

/-! ## Sets and maps of strings -/

/-- The method `set<string>::insert`. -/
def setInsert (x : Str) : List Str → List Str
  | [] => [x]
  | y :: ys =>
    if x = y then y :: ys
    else if strLt x y then x :: y :: ys
    else y :: setInsert x ys

/-- The method `set<string>::erase(key)`. -/
def setErase (x : Str) (s : List Str) : List Str :=
  s.filter (fun y => decide (y ≠ x))

/-- The method `map::find`, giving the mapped value. -/
def mapFind {V : Type} (k : Str) : List (Str × V) → Option V
  | [] => none
  | (k', v) :: m => if k = k' then some v else mapFind k m

/-- The assignment `m[k] = v`. -/
def mapSet {V : Type} (k : Str) (v : V) : List (Str × V) → List (Str × V)
  | [] => [(k, v)]
  | (k', v') :: m =>
    if k = k' then (k, v) :: m
    else if strLt k k' then (k, v) :: (k', v') :: m
    else (k', v') :: mapSet k v m

/-- The method `map::erase(key)`. -/
def mapErase {V : Type} (k : Str) (m : List (Str × V)) : List (Str × V) :=
  m.filter (fun e => decide (e.1 ≠ k))

/-- The value of `string_usages[key]`, which is the empty set when `key` has no entry. -/
def suGet (key : Str) (string_usages : List (Str × List Str)) : List Str :=
  (mapFind key string_usages).getD []

/-- Lines 51-53 (and 61-63):
`string_usages[key].erase(term); if (string_usages[key].empty()) string_usages.erase(key);`. -/
def suErase (key term : Str) (string_usages : List (Str × List Str)) :
    List (Str × List Str) :=
  let s := setErase term (suGet key string_usages)
  if s.isEmpty then mapErase key string_usages else mapSet key s string_usages

/-- Line 56: `string_usages[key].insert(term);`. -/
def suInsert (key term : Str) (string_usages : List (Str × List Str)) :
    List (Str × List Str) :=
  mapSet key (setInsert term (suGet key string_usages)) string_usages

/-! ## The scan -/

/-- The local variables of `tokenize` that live across iterations. -/
structure Scan where
  result : List Str
  string_usages : List (Str × List Str)
  usages : List (Str × Str)
  /-- The variable `matches` of the source (a reserved word here). -/
  matched : List Str
  sequence : Str
  deriving DecidableEq, Repr

/-- The state at line 29. -/
def Scan.init : Scan :=
  { result := [], string_usages := [], usages := [], matched := [], sequence := [] }

/-- The body of the loop over the keyterms (lines 35-71) for one `term`. -/
def updateTerm (character : Char) (st : Scan) (term : Str) : Scan :=
  let term_usage := mapFind term st.usages
  let current_string : Str :=
    match term_usage with
    | some u => u ++ [character]
    | none => [character]
  let st1 : Scan :=
    if term ∈ st.matched then st
    else if startswith term current_string then
      let su :=
        match term_usage with
        | some u => suErase u term st.string_usages
        | none => st.string_usages
      { st with
        usages := mapSet term current_string st.usages
        string_usages := suInsert current_string term su }
    else
      match term_usage with
      | some u =>
        { st with
          string_usages := suErase u term st.string_usages
          usages := mapErase term st.usages }
      | none => st
  if term = current_string then { st1 with matched := setInsert term st1.matched }
  else st1

/-- Lines 32-72: append the character to `sequence` and update every keyterm. -/
def updateAll (keyterms : List Str) (character : Char) (st : Scan) : Scan :=
  keyterms.foldl (updateTerm character) { st with sequence := st.sequence ++ [character] }

/-- The test of lines 82-88: some tracked string other than `m` contains `m`. -/
def contained (string_usages : List (Str × List Str)) (m : Str) : Bool :=
  string_usages.any (fun e => decide (e.1 ≠ m) && (find m e.1).isSome)

/-- The body of the candidate loop (lines 77-93) for one element of `matches`. -/
def considerMatch (st : Scan) (candidate : Str) (m : Str) : Except Fault Str :=
  if (mapFind m st.string_usages).isNone then .error .assertionFailed
  else if (mapFind m st.usages).isNone then .error .assertionFailed
  else if (suGet m st.string_usages).length > 1 then .ok candidate
  else if contained st.string_usages m then .ok candidate
  else if m.length > candidate.length then .ok m
  else .ok candidate

/-- The candidate loop (lines 75-94) over the elements of `matches` still to visit. -/
def pickCandidate (st : Scan) : List Str → Str → Except Fault Str
  | [], candidate => .ok candidate
  | m :: ms, candidate =>
    match considerMatch st candidate m with
    | .error e => .error e
    | .ok candidate' => pickCandidate st ms candidate'

/-- The body of the clean-up loop (lines 112-118) for one entry of the copy. -/
def cleanupEntry (term : Str) (st : Scan) (e : Str × List Str) : Scan :=
  let st1 : Scan :=
    if (find e.1 term).isSome then
      { st with
        usages := e.2.foldl (fun u t => mapErase t u) st.usages
        string_usages := mapErase e.1 st.string_usages }
    else st
  if e.1 ∈ st1.matched then { st1 with matched := setErase e.1 st1.matched } else st1

/-- Lines 110-119: the clean-up after `term` was emitted. -/
def cleanup (term : Str) (st : Scan) : Scan :=
  st.string_usages.foldl (cleanupEntry term) st

/-- Lines 96-121: emit `candidate` when it is not empty. -/
def emit (recurse : Str → Except Fault (List Str)) (st : Scan) (candidate : Str) :
    Except Fault Scan :=
  if candidate.length = 0 then .ok st
  else
    match rsplit st.sequence candidate with
    | .error e => .error e
    | .ok (pre, suffix) =>
      match (if pre.length > 0 then recurse pre else .ok []) with
      | .error e => .error e
      | .ok prefix_result =>
        let st1 := { st with result := st.result ++ prefix_result ++ [candidate] }
        .ok { cleanup candidate st1 with sequence := suffix }

/-- One iteration of the loop over the characters (lines 31-121). -/
def step (recurse : Str → Except Fault (List Str)) (keyterms : List Str) (st : Scan)
    (character : Char) : Except Fault Scan :=
  let st1 := updateAll keyterms character st
  match pickCandidate st1 st1.matched [] with
  | .error e => .error e
  | .ok candidate => emit recurse st1 candidate

/-- The loop over the characters of the text (lines 30-122). -/
def scan (recurse : Str → Except Fault (List Str)) (keyterms : List Str) :
    List Char → Scan → Except Fault Scan
  | [], st => .ok st
  | c :: cs, st =>
    match step recurse keyterms st c with
    | .error e => .error e
    | .ok st' => scan recurse keyterms cs st'

/-- The loop of lines 124-132 over the elements of `matches` still to visit, carrying
`result` and `sequence`. -/
def flushMatches : List Str → List Str → Str → Except Fault (List Str × Str)
  | [], result, sequence => .ok (result, sequence)
  | m :: ms, result, sequence =>
    match rsplit sequence m with
    | .error e => .error e
    | .ok (pre, suffix) => flushMatches ms (result ++ [pre, m]) suffix

/-- Lines 124-136: the end-of-input flush. -/
def flush (st : Scan) : Except Fault (List Str) :=
  match flushMatches st.matched st.result st.sequence with
  | .error e => .error e
  | .ok (result, sequence) =>
    if sequence.length ≠ 0 then .ok (result ++ [sequence]) else .ok result

/-- The function `tokenize` (lines 22-137) with a bound on the depth of its recursion. -/
def tokenizeFuel : Nat → Str → List Str → Except Fault (List Str)
  | 0, _, _ => .error .unboundedRecursion
  | fuel + 1, text, keyterms =>
    match scan (fun pre => tokenizeFuel fuel pre keyterms) keyterms text Scan.init with
    | .error e => .error e
    | .ok st => flush st

/-- The function `tokenize` (lines 22-137). -/
def tokenize (text : Str) (keyterms : List Str) : Except Fault (List Str) :=
  tokenizeFuel (text.length + 1) text keyterms

/-- The split of C5, in the specification's words: reading `text` from the left with the
run of characters other than `x` read since the last token, every occurrence of `x` closes
the run (a token when it is not empty) and is a token of its own; the run left at the end
of the text is the last token when it is not empty. -/
def splitRuns (x : Char) : Str → Str → List Str
  | run, [] => if run = [] then [] else [run]
  | run, c :: cs =>
    if c = x then (if run = [] then [] else [run]) ++ [x] :: splitRuns x [] cs
    else splitRuns x (run ++ [c]) cs

/-- The split of `text` at every occurrence of the character `x`. -/
def splitAtChar (x : Char) (text : Str) : List Str :=
  splitRuns x [] text

/-- The state with nothing tracked: `acc` emitted so far, `run` in the buffer. -/
def idle (acc : List Str) (run : Str) : Scan :=
  { result := acc, string_usages := [], usages := [], matched := [], sequence := run }

/-- The state while `p` and `t` both track the same string `u`. -/
def sharing (p t u : Str) : Scan :=
  { result := [], string_usages := [(u, [p, t])], usages := [(p, u), (t, u)],
    matched := if u = p then [p] else [], sequence := u }

/-- The state once `p` is matched and `t` tracks the longer string `u`. -/
def shadowed (p t u : Str) : Scan :=
  { result := [], string_usages := [(p, [p]), (u, [t])], usages := [(p, p), (t, u)],
    matched := if u = t then [p, t] else [p], sequence := u }

/-- The state of C4 after the character that makes `t` diverge. -/
def diverged (p : Str) (c : Char) : Scan :=
  { result := [], string_usages := [(p, [p])], usages := [(p, p)], matched := [p],
    sequence := p ++ [c] }

/-- A `std::set<string>` in the model: strictly increasing. -/
def SetOk (s : List Str) : Prop :=
  s.Pairwise (fun a b => strLt a b = true)

/-- A `std::map<string, V>` in the model: strictly increasing keys. -/
def MapOk {V : Type} (m : List (Str × V)) : Prop :=
  m.Pairwise (fun a b => strLt a.1 b.1 = true)

/-- The reverse index in the model: increasing keys, each set increasing and not empty. -/
def SuOk (su : List (Str × List Str)) : Prop :=
  MapOk su ∧ ∀ e ∈ su, SetOk e.2 ∧ e.2 ≠ []

/-- The containers of a scan state are well formed. -/
structure Scan.Ok (st : Scan) : Prop where
  usages : MapOk st.usages
  string_usages : SuOk st.string_usages
  matched : SetOk st.matched

/-- Two states agree on everything recorded for the keyterm `x`. -/
def SameAt (x : Str) (st st' : Scan) : Prop :=
  mapFind x st.usages = mapFind x st'.usages ∧ (x ∈ st.matched ↔ x ∈ st'.matched) ∧
  ∀ s, x ∈ suGet s st.string_usages ↔ x ∈ suGet s st'.string_usages

/-- The invariant of the scan: well-formed containers, the reverse index is the inverse of
the usage map, every completed match is tracked as itself, and every tracked string is a
non-empty prefix of its keyterm. -/
structure Scan.Inv (st : Scan) : Prop where
  ok : st.Ok
  inverse : ∀ s t, t ∈ suGet s st.string_usages ↔ mapFind t st.usages = some s
  matched_usage : ∀ m ∈ st.matched, mapFind m st.usages = some m
  tracked : ∀ t u, mapFind t st.usages = some u → u <+: t ∧ u ≠ []

/-- The reverse index is the exact inverse of the usage map: `t` is in the set stored under
`s` exactly when the usage map sends `t` to `s`, and no stored set is empty. -/
def ReverseIndexExact (st : Scan) : Prop :=
  (∀ s t, (∃ x, mapFind s st.string_usages = some x ∧ t ∈ x) ↔ mapFind t st.usages = some s) ∧
  ∀ s x, mapFind s st.string_usages = some x → x ≠ []

/-- The two tests of the candidate loop for the completed match `m`, as the code makes them:
at most one keyterm under the key `m`, and no other key containing `m`. -/
def passes (st : Scan) (m : Str) : Bool :=
  decide ((suGet m st.string_usages).length ≤ 1) && !contained st.string_usages m

/-- The two conditions of the emission policy for the keyterm `m`, in the specification's
words: its tracked substring is held by exactly one keyterm in the reverse index, and is not
a strict substring of any other tracked substring. -/
def Eligible (st : Scan) (m : Str) : Prop :=
  ∃ u, mapFind m st.usages = some u ∧ (suGet u st.string_usages).length = 1 ∧
    ∀ e ∈ st.string_usages, u <:+: e.1 → e.1 = u

/-- The string `current_string` of lines 36-40. -/
def currentString (character : Char) (st : Scan) (term : Str) : Str :=
  match mapFind term st.usages with
  | some u => u ++ [character]
  | none => [character]

/-- Nothing was emitted since the start of the text `old` scanned so far: the buffer is
`old`, every completed match occurs in it, and every usage of a keyterm that is not yet
completed is a suffix of it. -/
def Anchored (V : List Str) (old : Str) (st : Scan) : Prop :=
  st.sequence = old ∧ (∀ m ∈ st.matched, m <:+: old) ∧
  ∀ t u, mapFind t st.usages = some u → t ∈ V ∧ (t ∉ st.matched → u <:+ old)

/-- The buffer is shorter than the text `old` scanned so far, or nothing was emitted yet. -/
def Bounded (V : List Str) (old : Str) (st : Scan) : Prop :=
  st.sequence.length < old.length ∨ Anchored V old st

/-- The statement of C17 for one text and one vocabulary: the scan of `text` consults the
recursive call only at prefixes strictly shorter than `text` (it cannot tell two functions
apart that agree on these), the recursion of `tokenize` ends, and every bound on its depth
above the length of `text` gives the same result. -/
def RecursesOnShorter (text : Str) (V : List Str) : Prop :=
  (∀ recurse recurse' : Str → Except Fault (List Str),
    (∀ pre : Str, pre.length < text.length → recurse pre = recurse' pre) →
    scan recurse V text Scan.init = scan recurse' V text Scan.init) ∧
  tokenize text V ≠ .error .unboundedRecursion ∧
  ∀ fuel, text.length < fuel → tokenizeFuel fuel text V = tokenize text V

/-- A vocabulary with an empty keyterm or with the same keyterm twice. -/
def degenerate (keyterms : List Str) : Prop :=
  [] ∈ keyterms ∨ ¬ keyterms.Nodup

/-! ## Faults -/

theorem substr_fault {s : Str} {pos n : Nat} {e : Fault}
    (h : substr s pos n = .error e) : e = .outOfRange := by
  unfold substr at h
  split at h
  · cases h; rfl
  · cases h

theorem rsplit_fault {sequence term : Str} {e : Fault}
    (h : rsplit sequence term = .error e) : e = .outOfRange := by
  unfold rsplit at h
  split at h
  · next e' h1 => cases h; exact substr_fault h1
  · split at h
    · next e' h2 => cases h; exact substr_fault h2
    · cases h

theorem considerMatch_fault {st : Scan} {candidate m : Str} {e : Fault}
    (h : considerMatch st candidate m = .error e) : e = .assertionFailed := by
  unfold considerMatch at h
  repeat' split at h
  all_goals first | (cases h; rfl) | cases h

theorem pickCandidate_fault {st : Scan} {ms : List Str} {candidate : Str} {e : Fault}
    (h : pickCandidate st ms candidate = .error e) : e = .assertionFailed := by
  induction ms generalizing candidate with
  | nil => cases h
  | cons m ms ih =>
    unfold pickCandidate at h
    split at h
    · next e' h1 => cases h; exact considerMatch_fault h1
    · exact ih h

theorem flushMatches_fault {ms : List Str} {result : List Str} {sequence : Str} {e : Fault}
    (h : flushMatches ms result sequence = .error e) : e = .outOfRange := by
  induction ms generalizing result sequence with
  | nil => cases h
  | cons m ms ih =>
    unfold flushMatches at h
    split at h
    · next e' h1 => cases h; exact rsplit_fault h1
    · exact ih h

theorem flush_fault {st : Scan} {e : Fault} (h : flush st = .error e) : e = .outOfRange := by
  unfold flush at h
  split at h
  · next e' h1 => cases h; exact flushMatches_fault h1
  · split at h <;> cases h

/-- A fault of `emit` is `outOfRange` or comes from the recursive call. -/
theorem emit_fault {recurse : Str → Except Fault (List Str)} {st : Scan} {candidate : Str}
    {e : Fault} (h : emit recurse st candidate = .error e) :
    e = .outOfRange ∨ ∃ pre, recurse pre = .error e := by
  unfold emit at h
  split at h
  · cases h
  · split at h
    · next e' h1 => cases h; exact Or.inl (rsplit_fault h1)
    · next pre suffix h1 =>
      split at h
      · next e' h2 =>
        cases h
        split at h2
        · exact Or.inr ⟨pre, h2⟩
        · cases h2
      · cases h

theorem step_fault {recurse : Str → Except Fault (List Str)} {keyterms : List Str} {st : Scan}
    {c : Char} {e : Fault} (h : step recurse keyterms st c = .error e) :
    e = .outOfRange ∨ e = .assertionFailed ∨ ∃ pre, recurse pre = .error e := by
  unfold step at h
  simp only at h
  split at h
  · next e' h1 => cases h; exact Or.inr (Or.inl (pickCandidate_fault h1))
  · rcases emit_fault h with h1 | h1
    · exact Or.inl h1
    · exact Or.inr (Or.inr h1)

theorem scan_fault {recurse : Str → Except Fault (List Str)} {keyterms : List Str}
    {text : List Char} {st : Scan} {e : Fault} (h : scan recurse keyterms text st = .error e) :
    e = .outOfRange ∨ e = .assertionFailed ∨ ∃ pre, recurse pre = .error e := by
  induction text generalizing st with
  | nil => cases h
  | cons c cs ih =>
    unfold scan at h
    split at h
    · next e' h1 => cases h; exact step_fault h1
    · exact ih h

theorem tokenizeFuel_fault (fuel : Nat) (text : Str) (keyterms : List Str) {e : Fault}
    (h : tokenizeFuel fuel text keyterms = .error e) :
    e = .outOfRange ∨ e = .assertionFailed ∨ e = .unboundedRecursion := by
  induction fuel generalizing text e with
  | zero => cases h; exact Or.inr (Or.inr rfl)
  | succ n ih =>
    unfold tokenizeFuel at h
    split at h
    · next e' h1 =>
      cases h
      rcases scan_fault h1 with h2 | h2 | ⟨pre, h2⟩
      · exact Or.inl h2
      · exact Or.inr (Or.inl h2)
      · exact ih pre h2
    · exact Or.inl (flush_fault h)

/-! ## Evaluations of `tokenize`, and the vocabulary check -/

/-- C1 (round-trip), at the text "abcd" with the keyterms "ab", "abx", "bcd": the call
returns the tokens "ab", "cd", "bcd", whose concatenation "abcdbcd" is not the text. -/
theorem roundtrip_broken_by_stale_partial :
    tokenize "abcd".toList ["ab".toList, "abx".toList, "bcd".toList]
      = .ok ["ab".toList, "cd".toList, "bcd".toList]
    ∧ List.flatten ["ab".toList, "cd".toList, "bcd".toList] ≠ "abcd".toList := by
  decide

/-- C2 (keyterm atomicity), at the text "aab" with the single keyterm "ab": the keyterm
occurs at position 1 and nothing overlaps it, yet the call returns the one token "aab",
so no token is the keyterm. -/
theorem keyterm_missed_after_failed_partial :
    tokenize "aab".toList ["ab".toList] = .ok ["aab".toList]
    ∧ "aab".toList = "a".toList ++ "ab".toList ++ []
    ∧ "ab".toList ∉ ["aab".toList] := by
  decide

/-- C7 (idempotence on literal tokens), at the text "a" with the keyterms "a", "ab": the
call returns the empty string and "a"; the empty string is not a keyterm, and tokenizing
it gives no token at all rather than the one token it is. -/
theorem empty_literal_token_not_reproduced :
    tokenize "a".toList ["a".toList, "ab".toList] = .ok [[], "a".toList]
    ∧ ([] : Str) ∉ ["a".toList, "ab".toList]
    ∧ tokenize [] ["a".toList, "ab".toList] = .ok []
    ∧ tokenize [] ["a".toList, "ab".toList] ≠ .ok [[]] := by
  decide

/-- C8 as stated is false: the vocabulary holding only the empty keyterm is degenerate, and
`tokenize` returns the token "a" for the text "a" instead of failing. -/
theorem degenerate_vocabulary_not_rejected :
    ¬ (∀ (text : Str) (keyterms : List Str), degenerate keyterms →
        tokenize text keyterms = .error .invalidVocabulary) := by
  intro h
  have h1 := h "a".toList [[]] (Or.inl (List.mem_singleton.mpr rfl))
  revert h1
  decide

/-- C8, amended: no vocabulary is rejected; for every text and every vocabulary, degenerate
or not, `tokenize` does not fail with the `InvalidVocabulary` condition. -/
theorem tokenize_never_invalidVocabulary (text : Str) (keyterms : List Str) :
    tokenize text keyterms ≠ .error .invalidVocabulary := by
  intro h
  rcases tokenizeFuel_fault _ _ _ h with h1 | h1 | h1 <;> cases h1

/-- C10 (empty text): for every vocabulary, `tokenize` of the empty text returns the empty
list of tokens. -/
theorem tokenize_empty_text (keyterms : List Str) : tokenize [] keyterms = .ok [] := by
  rfl

/-! ## Texts in which no keyterm occurs -/

theorem mapFind_mapSet {V : Type} (k k' : Str) (v : V) (m : List (Str × V)) :
    mapFind k (mapSet k' v m) = if k = k' then some v else mapFind k m := by
  induction m with
  | nil => simp [mapSet, mapFind]
  | cons e m ih =>
    obtain ⟨a, b⟩ := e
    unfold mapSet
    by_cases h1 : k' = a
    · subst h1
      simp only [if_true, mapFind]
      by_cases h3 : k = k' <;> simp [h3]
    · simp only [h1, if_false]
      by_cases h2 : strLt k' a = true
      · simp only [h2, if_true, mapFind]
      · simp only [h2, mapFind, ih]
        by_cases h3 : k = a
        · subst h3
          have : ¬ k = k' := fun h => h1 h.symm
          simp [this]
        · simp [h3]

theorem mapFind_mapErase {V : Type} (k k' : Str) (m : List (Str × V)) :
    mapFind k (mapErase k' m) = if k = k' then none else mapFind k m := by
  induction m with
  | nil => simp [mapErase, mapFind]
  | cons e m ih =>
    obtain ⟨a, b⟩ := e
    unfold mapErase at ih ⊢
    by_cases h1 : a = k'
    · subst h1
      simp only [List.filter, ne_eq, not_true_eq_false, decide_False, ih, mapFind]
      by_cases h2 : k = a <;> simp [h2]
    · simp only [List.filter, ne_eq, h1, not_false_eq_true, decide_True, mapFind, ih]
      by_cases h2 : k = a
      · subst h2; simp [h1]
      · simp [h2]

theorem startswith_iff (a b : Str) : startswith a b = true ↔ b <+: a := by
  unfold startswith
  rw [decide_eq_true_iff, List.prefix_iff_eq_take]
  exact eq_comm

/-- One keyterm update when the keyterm does not occur in the text scanned so far: nothing
is matched, and the only usage that changes is the one of this keyterm. -/
theorem updateTerm_quiet (c : Char) (st : Scan) (t old : Str)
    (hm : st.matched = [])
    (hu : ∀ u, mapFind t st.usages = some u → u <:+ old)
    (hno : ¬ t <:+: old ++ [c]) :
    (updateTerm c st t).matched = [] ∧ (updateTerm c st t).result = st.result ∧
    (updateTerm c st t).sequence = st.sequence ∧
    ∀ k u, mapFind k (updateTerm c st t).usages = some u →
      (k = t ∧ u <:+ old ++ [c]) ∨ (k ≠ t ∧ mapFind k st.usages = some u) := by
  have hcs : ∀ cs : Str, cs <:+ old ++ [c] → t ≠ cs := by
    intro cs h1 h2
    exact hno (h2 ▸ h1.isInfix)
  unfold updateTerm
  cases hf : mapFind t st.usages with
  | none =>
    have hne : t ≠ [c] := hcs [c] (List.suffix_append old [c])
    simp only [hm, List.not_mem_nil, if_false, hne]
    split
    · refine ⟨rfl, rfl, rfl, ?_⟩
      intro k u
      simp only [mapFind_mapSet]
      by_cases hk : k = t
      · subst hk
        rw [if_pos rfl]
        intro h; cases h
        exact Or.inl ⟨rfl, List.suffix_append old [c]⟩
      · simp only [hk, if_false]
        intro h; exact Or.inr ⟨hk, h⟩
    · refine ⟨hm, rfl, rfl, ?_⟩
      intro k u h
      by_cases hk : k = t
      · subst hk; rw [hf] at h; cases h
      · exact Or.inr ⟨hk, h⟩
  | some u0 =>
    have hsuf : u0 ++ [c] <:+ old ++ [c] := by
      obtain ⟨pre, hp⟩ := hu u0 hf
      exact ⟨pre, by rw [← hp, List.append_assoc]⟩
    have hne : t ≠ u0 ++ [c] := hcs _ hsuf
    simp only [hm, List.not_mem_nil, if_false, hne]
    split
    · refine ⟨rfl, rfl, rfl, ?_⟩
      intro k u
      simp only [mapFind_mapSet]
      by_cases hk : k = t
      · subst hk
        rw [if_pos rfl]
        intro h; cases h
        exact Or.inl ⟨rfl, hsuf⟩
      · simp only [hk, if_false]
        intro h; exact Or.inr ⟨hk, h⟩
    · refine ⟨rfl, rfl, rfl, ?_⟩
      intro k u
      simp only [mapFind_mapErase]
      by_cases hk : k = t
      · simp [hk]
      · simp only [hk, if_false]
        intro h; exact Or.inr ⟨hk, h⟩

/-- The loop over the keyterms when none of the keyterms still to visit occurs in the text
scanned so far. -/
theorem foldl_updateTerm_quiet (c : Char) (old : Str) (V : List Str) :
    ∀ (R : List Str) (st : Scan), R.Nodup → (∀ t ∈ R, t ∈ V) →
      (∀ t ∈ R, ¬ t <:+: old ++ [c]) → st.matched = [] →
      (∀ k u, mapFind k st.usages = some u →
        k ∈ V ∧ ((k ∈ R ∧ u <:+ old) ∨ (k ∉ R ∧ u <:+ old ++ [c]))) →
      (R.foldl (updateTerm c) st).matched = [] ∧
      (R.foldl (updateTerm c) st).result = st.result ∧
      (R.foldl (updateTerm c) st).sequence = st.sequence ∧
      ∀ k u, mapFind k (R.foldl (updateTerm c) st).usages = some u →
        k ∈ V ∧ u <:+ old ++ [c] := by
  intro R
  induction R with
  | nil =>
    intro st _ _ _ hm hu
    refine ⟨hm, rfl, rfl, ?_⟩
    intro k u h
    rcases hu k u h with ⟨hv, h1 | h1⟩
    · exact absurd h1.1 (List.not_mem_nil k)
    · exact ⟨hv, h1.2⟩
  | cons t R ih =>
    intro st hnd hV hno hm hu
    have hq := updateTerm_quiet c st t old hm
      (fun u h => by
        rcases hu t u h with ⟨_, h1 | h1⟩
        · exact h1.2
        · exact absurd (List.mem_cons_self t R) h1.1)
      (hno t (List.mem_cons_self t R))
    obtain ⟨q1, q2, q3, q4⟩ := hq
    have hnd' := List.nodup_cons.mp hnd
    have := ih (updateTerm c st t) hnd'.2 (fun x hx => hV x (List.mem_cons_of_mem t hx))
      (fun x hx => hno x (List.mem_cons_of_mem t hx)) q1
      (fun k u h => by
        rcases q4 k u h with ⟨hk, hs⟩ | ⟨hk, hs⟩
        · subst hk
          exact ⟨hV k (List.mem_cons_self k R), Or.inr ⟨hnd'.1, hs⟩⟩
        · rcases hu k u hs with ⟨hv, h1 | h1⟩
          · refine ⟨hv, Or.inl ⟨?_, h1.2⟩⟩
            rcases List.mem_cons.mp h1.1 with h2 | h2
            · exact absurd h2 hk
            · exact h2
          · exact ⟨hv, Or.inr ⟨fun h2 => h1.1 (List.mem_cons_of_mem t h2), h1.2⟩⟩)
    simp only [List.foldl_cons]
    refine ⟨this.1, this.2.1.trans q2, this.2.2.1.trans q3, this.2.2.2⟩

/-- The scan of a stretch of text in which no keyterm occurs: no recursive call, no
emission; the stretch is appended to `sequence`. -/
theorem scan_quiet (recurse : Str → Except Fault (List Str)) (V : List Str) (hnd : V.Nodup) :
    ∀ (rest old : Str) (st : Scan), (∀ t ∈ V, ¬ t <:+: old ++ rest) →
      st.matched = [] → st.sequence = old →
      (∀ k u, mapFind k st.usages = some u → k ∈ V ∧ u <:+ old) →
      ∃ st', scan recurse V rest st = .ok st' ∧ st'.matched = [] ∧
        st'.result = st.result ∧ st'.sequence = old ++ rest := by
  intro rest
  induction rest with
  | nil =>
    intro old st _ hm hs _
    exact ⟨st, rfl, hm, rfl, by simpa using hs⟩
  | cons c rest ih =>
    intro old st hno hm hs hu
    have hno' : ∀ t ∈ V, ¬ t <:+: old ++ [c] := by
      intro t ht h
      apply hno t ht
      have : old ++ c :: rest = (old ++ [c]) ++ rest := by simp
      rw [this]
      exact h.trans (List.prefix_append _ _).isInfix
    have hf := foldl_updateTerm_quiet c old V V { st with sequence := st.sequence ++ [c] }
      hnd (fun _ h => h) hno' hm
      (fun k u h => by
        obtain ⟨h1, h2⟩ := hu k u h
        exact ⟨h1, Or.inl ⟨h1, h2⟩⟩)
    obtain ⟨f1, f2, f3, f4⟩ := hf
    have hstep : step recurse V st c = .ok (updateAll V c st) := by
      unfold step
      simp only
      have : (updateAll V c st).matched = [] := f1
      rw [this]
      simp [pickCandidate, emit]
    have := ih (old ++ [c]) (updateAll V c st) (by simpa using hno) f1
      (by rw [updateAll, f3, hs]) f4
    obtain ⟨st', s1, s2, s3, s4⟩ := this
    refine ⟨st', ?_, s2, ?_, by simpa using s4⟩
    · unfold scan
      rw [hstep]
      exact s1
    · rw [s3]
      exact f2

theorem tokenizeFuel_no_keyterm (fuel : Nat) (text : Str) (V : List Str) (hnd : V.Nodup)
    (hne : text ≠ []) (hno : ∀ t ∈ V, ¬ t <:+: text) :
    tokenizeFuel (fuel + 1) text V = .ok [text] := by
  obtain ⟨st', s1, s2, s3, s4⟩ := scan_quiet (fun pre => tokenizeFuel fuel pre V) V hnd
    text [] Scan.init (by simpa using hno) rfl rfl (by intro k u h; cases h)
  unfold tokenizeFuel
  rw [s1]
  simp only [flush, s2, s3, s4, flushMatches, Scan.init, List.nil_append]
  simp [hne]

/-- C6 as stated is false: no keyterm of the vocabulary "aa", "aa" occurs in the text "a",
yet `tokenize` does not return the single token "a": the second copy of the keyterm extends
the usage the first copy has just recorded, "aa" is matched and split off a buffer that does
not hold it, and the call recurses on the whole text without end. -/
theorem no_keyterm_fails_on_repeated_keyterm :
    ¬ (∀ (text : Str) (keyterms : List Str), text ≠ [] →
        (∀ t ∈ keyterms, ¬ t <:+: text) → tokenize text keyterms = .ok [text]) := by
  intro h
  have h1 := h "a".toList ["aa".toList, "aa".toList] (by decide) (by decide)
  revert h1
  decide

/-- C6, amended: for every non-empty text and every vocabulary of distinct keyterms none of
which occurs as a substring of the text, `tokenize` returns the single token `text`. -/
theorem tokenize_no_keyterm (text : Str) (keyterms : List Str) (hnd : keyterms.Nodup)
    (hne : text ≠ []) (hno : ∀ t ∈ keyterms, ¬ t <:+: text) :
    tokenize text keyterms = .ok [text] :=
  tokenizeFuel_no_keyterm text.length text keyterms hnd hne hno

/-- The amended C6 at the text "hello" with the vocabulary "zz". -/
theorem tokenize_no_keyterm_witness :
    ["zz".toList].Nodup ∧ "hello".toList ≠ [] ∧
    (∀ t ∈ ["zz".toList], ¬ t <:+: "hello".toList) ∧
    tokenize "hello".toList ["zz".toList] = .ok ["hello".toList] :=
  ⟨by decide, by decide, by decide,
    tokenize_no_keyterm "hello".toList ["zz".toList] (by decide) (by decide) (by decide)⟩

/-! ## A vocabulary of one single-character keyterm -/

theorem rfindPos_single_end (x : Char) (run : Str) :
    rfindPos [x] (run ++ [x]) = some run.length := by
  induction run with
  | nil => simp [rfindPos, startswith]
  | cons c run ih => simp [rfindPos, ih]

theorem rsplit_single_end (x : Char) (run : Str) :
    rsplit (run ++ [x]) [x] = .ok (run, []) := by
  simp [rsplit, rfind, rfindEnd, rfindPos_single_end, substr]

theorem step_single_other (recurse : Str → Except Fault (List Str)) (x c : Char)
    (hc : c ≠ x) (acc : List Str) (run : Str) :
    step recurse [[x]] (idle acc run) c = .ok (idle acc (run ++ [c])) := by
  have h1 : ¬ x = c := fun h => hc h.symm
  simp [step, updateAll, updateTerm, idle, mapFind, startswith, h1, pickCandidate, emit]

theorem step_single_hit (recurse : Str → Except Fault (List Str)) (x : Char)
    (acc : List Str) (run : Str) (hr : run ≠ [] → recurse run = .ok [run]) :
    step recurse [[x]] (idle acc run) x
      = .ok (idle (acc ++ (if run = [] then [] else [run]) ++ [[x]]) []) := by
  by_cases h : run = []
  · subst h
    simp [step, updateAll, updateTerm, idle, mapFind, startswith, pickCandidate, emit,
      mapSet, suInsert, suGet, setInsert, considerMatch, contained, rsplit, rfind, rfindEnd,
      rfindPos, substr, cleanup, cleanupEntry, find, mapErase, setErase]
  · have hl : 0 < run.length := List.length_pos.mpr h
    simp [step, updateAll, updateTerm, idle, mapFind, startswith, pickCandidate, emit,
      mapSet, suInsert, suGet, setInsert, considerMatch, contained, rsplit_single_end,
      cleanup, cleanupEntry, find, mapErase, setErase, hr h, h, hl]

theorem scan_single (recurse : Str → Except Fault (List Str)) (x : Char)
    (hr : ∀ r : Str, r ≠ [] → x ∉ r → recurse r = .ok [r]) :
    ∀ (rest : Str) (acc : List Str) (run : Str), x ∉ run →
      ∃ st', scan recurse [[x]] rest (idle acc run) = .ok st' ∧
        flush st' = .ok (acc ++ splitRuns x run rest) := by
  intro rest
  induction rest with
  | nil =>
    intro acc run _
    refine ⟨idle acc run, rfl, ?_⟩
    by_cases h : run = [] <;> simp [flush, flushMatches, idle, splitRuns, h]
  | cons c rest ih =>
    intro acc run hx
    by_cases hc : c = x
    · subst hc
      obtain ⟨st', h1, h2⟩ := ih (acc ++ (if run = [] then [] else [run]) ++ [[c]]) []
        (List.not_mem_nil c)
      refine ⟨st', ?_, ?_⟩
      · unfold scan
        rw [step_single_hit recurse c acc run (fun h => hr run h hx)]
        exact h1
      · rw [h2]
        simp [splitRuns]
    · obtain ⟨st', h1, h2⟩ := ih acc (run ++ [c]) (by
        simp only [List.mem_append, List.mem_singleton, not_or]
        exact ⟨hx, fun h => hc h.symm⟩)
      refine ⟨st', ?_, ?_⟩
      · unfold scan
        rw [step_single_other recurse x c hc]
        exact h1
      · rw [h2]
        simp [splitRuns, hc]

theorem tokenizeFuel_single (fuel : Nat) (x : Char) (text : Str) :
    tokenizeFuel (fuel + 2) text [[x]] = .ok (splitAtChar x text) := by
  obtain ⟨st', h1, h2⟩ := scan_single (fun pre => tokenizeFuel (fuel + 1) pre [[x]]) x
    (fun r hne hx => tokenizeFuel_no_keyterm fuel r [[x]] (List.nodup_singleton _) hne
      (by
        intro t ht h
        rw [List.mem_singleton] at ht
        subst ht
        exact hx (h.subset (List.mem_singleton.mpr rfl))))
    text [] [] (List.not_mem_nil x)
  unfold tokenizeFuel
  have : Scan.init = idle [] [] := rfl
  rw [this, h1]
  simpa [splitAtChar] using h2

/-- C5 (disjoint matches preserved): for every text and every vocabulary of one
single-character keyterm `x`, `tokenize` returns the split of the text at every occurrence
of `x`: each occurrence a token of its own, each maximal non-empty run of other characters
one token, in text order. -/
theorem tokenize_single_char_keyterm (x : Char) (text : Str) :
    tokenize text [[x]] = .ok (splitAtChar x text) := by
  cases text with
  | nil => rfl
  | cons c cs => exact tokenizeFuel_single cs.length x (c :: cs)

/-! ## A keyterm and a proper prefix of it -/

theorem strLt_irrefl (a : Str) : strLt a a = false := by
  induction a with
  | nil => rfl
  | cons c a ih => simp [strLt, ih]

theorem strLt_prefix_lt {a b : Str} (h : a <+: b) (hne : a ≠ b) : strLt a b = true := by
  induction a generalizing b with
  | nil =>
    cases b with
    | nil => exact absurd rfl hne
    | cons d b => rfl
  | cons c a ih =>
    cases b with
    | nil => simp at h
    | cons d b =>
      obtain ⟨h1, h2⟩ := List.cons_prefix_cons.mp h
      subst h1
      have : a ≠ b := fun h3 => hne (by rw [h3])
      simp [strLt, ih h2 this]

theorem strLt_prefix_ge {a b : Str} (h : a <+: b) : strLt b a = false := by
  induction a generalizing b with
  | nil => cases b <;> rfl
  | cons c a ih =>
    cases b with
    | nil => simp at h
    | cons d b =>
      obtain ⟨h1, h2⟩ := List.cons_prefix_cons.mp h
      subst h1
      simp [strLt, ih h2]

theorem find_prefix_zero {a b : Str} (h : a <+: b) : find a b = some 0 := by
  cases b with
  | nil =>
    have : a = [] := List.prefix_nil.mp h
    simp [find, this]
  | cons d b =>
    have : startswith (d :: b) a = true := (startswith_iff _ _).mpr h
    simp [find, this]

theorem find_length {a b : Str} {i : Nat} (h : find a b = some i) : a.length ≤ b.length := by
  induction b generalizing i with
  | nil =>
    unfold find at h
    split at h
    · next h1 => simp [h1]
    · cases h
  | cons d b ih =>
    unfold find at h
    split at h
    · next h1 => exact ((startswith_iff _ _).mp h1).length_le
    · cases h2 : find a b with
      | none => simp [h2] at h
      | some j =>
        have := ih h2
        simp only [List.length_cons]
        omega

theorem find_none_of_length_lt {a b : Str} (h : b.length < a.length) : find a b = none := by
  cases h1 : find a b with
  | none => rfl
  | some i => have := find_length h1; omega

/-- A position `rfind` returns leaves room for the term. -/
theorem rfindPos_bound {a b : Str} {i : Nat} (h : rfindPos a b = some i) :
    i + a.length ≤ b.length := by
  induction b generalizing i with
  | nil =>
    unfold rfindPos at h
    split at h
    · next h1 => cases h; simp [h1]
    · cases h
  | cons d b ih =>
    unfold rfindPos at h
    split at h
    · next p hp =>
      cases h
      have := ih hp
      simp only [List.length_cons]
      omega
    · split at h
      · next h1 =>
        cases h
        have := ((startswith_iff _ _).mp h1).length_le
        omega
      · cases h

theorem rfindPos_prefix_isSome {a b : Str} (h : a <+: b) : (rfindPos a b).isSome := by
  cases b with
  | nil =>
    have : a = [] := List.prefix_nil.mp h
    simp [rfindPos, this]
  | cons d b =>
    have : startswith (d :: b) a = true := (startswith_iff _ _).mpr h
    unfold rfindPos
    split
    · rfl
    · simp [this]

theorem rfindPos_self (a : Str) : rfindPos a a = some 0 := by
  have h1 := rfindPos_prefix_isSome (List.prefix_refl a)
  cases h2 : rfindPos a a with
  | none => simp [h2] at h1
  | some i =>
    have := rfindPos_bound h2
    have : i = 0 := by omega
    rw [this]

theorem rsplit_self (a : Str) : rsplit a a = .ok ([], []) := by
  simp [rsplit, rfind, rfindEnd, rfindPos_self, substr]

theorem updateAll_init_sharing {p t : Str} {c : Char} (hp : [c] <+: p) (hpt : p <+: t)
    (hne : p ≠ t) : updateAll [p, t] c Scan.init = sharing p t [c] := by
  have h1 : ¬ t = p := fun h => hne h.symm
  have h2 : strLt t p = false := strLt_prefix_ge hpt
  have h3 : startswith p [c] = true := (startswith_iff _ _).mpr hp
  have h4 : startswith t [c] = true := (startswith_iff _ _).mpr (hp.trans hpt)
  have h5 : ¬ t = [c] := by
    intro h
    subst h
    exact hne (List.IsPrefix.eq_of_length_le hpt hp.length_le)
  by_cases h6 : p = [c]
  · subst h6
    simp [updateAll, updateTerm, Scan.init, sharing, mapFind, mapSet, suInsert, suGet,
      setInsert, h1, h2, h3, h4, h5, hne]
  · have h7 : ¬ [c] = p := fun h => h6 h.symm
    simp [updateAll, updateTerm, Scan.init, sharing, mapFind, mapSet, suInsert, suGet,
      setInsert, h1, h2, h3, h4, h5, h6, h7, hne]

theorem append_prefix_ne {u p : Str} {c : Char} (h : u ++ [c] <+: p) : u ≠ p := by
  intro h1
  have := h.length_le
  rw [h1] at this
  simp at this

theorem updateAll_sharing {p t u : Str} {c : Char} (hu : u ++ [c] <+: p) (hpt : p <+: t)
    (hne : p ≠ t) : updateAll [p, t] c (sharing p t u) = sharing p t (u ++ [c]) := by
  have h0 : ¬ u = p := append_prefix_ne hu
  have h1 : ¬ t = p := fun h => hne h.symm
  have h2 : strLt t p = false := strLt_prefix_ge hpt
  have h3 : startswith p (u ++ [c]) = true := (startswith_iff _ _).mpr hu
  have h4 : startswith t (u ++ [c]) = true := (startswith_iff _ _).mpr (hu.trans hpt)
  have h5 : ¬ t = u ++ [c] := by
    intro h
    subst h
    exact hne (List.IsPrefix.eq_of_length_le hpt hu.length_le)
  have h8 : strLt (u ++ [c]) u = false := strLt_prefix_ge (List.prefix_append u [c])
  by_cases h6 : p = u ++ [c]
  · subst h6
    simp [updateAll, updateTerm, sharing, mapFind, mapSet, mapErase, suInsert, suErase, suGet,
      setInsert, setErase, h1, h2, h3, h4, h5, hne, h8]
  · have h7 : ¬ u ++ [c] = p := fun h => h6 h.symm
    simp [updateAll, updateTerm, sharing, mapFind, mapSet, mapErase, suInsert, suErase, suGet,
      setInsert, setErase, h0, h1, h2, h3, h4, h5, h6, h7, hne, h8]

theorem updateAll_shadowed {p t u : Str} {c : Char} (hpu : p <+: u) (hup : u ≠ p)
    (hut : u ≠ t) (hu : u ++ [c] <+: t) (hne : p ≠ t) :
    updateAll [p, t] c (shadowed p t u) = shadowed p t (u ++ [c]) := by
  have hpt : p <+: t := (hpu.trans (List.prefix_append u [c])).trans hu
  have hpc : p <+: u ++ [c] := hpu.trans (List.prefix_append u [c])
  have h1 : ¬ t = p := fun h => hne h.symm
  have h2 : strLt t p = false := strLt_prefix_ge hpt
  have h4 : startswith t (u ++ [c]) = true := (startswith_iff _ _).mpr hu
  have h5 : ¬ p = u := fun h => hup h.symm
  have h6 : ¬ u ++ [c] = p := by
    intro h
    have := hpu.length_le
    rw [← h] at this
    simp at this
  have h7 : ¬ p = u ++ [c] := fun h => h6 h.symm
  have h8 : strLt (u ++ [c]) p = false := strLt_prefix_ge hpc
  have h9 : ¬ t = u := fun h => hut h.symm
  by_cases h10 : t = u ++ [c]
  · subst h10
    simp [updateAll, updateTerm, shadowed, mapFind, mapSet, mapErase, suInsert, suErase,
      suGet, setInsert, setErase, h2, h4, h5, h6, h7, h8, hup, hut, hne]
  · have h11 : ¬ u ++ [c] = t := fun h => h10 h.symm
    simp [updateAll, updateTerm, shadowed, mapFind, mapSet, mapErase, suInsert, suErase,
      suGet, setInsert, setErase, h1, h2, h4, h5, h6, h7, h8, h9, h10, h11, hup, hut, hne]

theorem updateAll_sharing_shadowed {p t : Str} {c : Char} (hu : p ++ [c] <+: t)
    (hne : p ≠ t) : updateAll [p, t] c (sharing p t p) = shadowed p t (p ++ [c]) := by
  have hpt : p <+: t := (List.prefix_append p [c]).trans hu
  have h1 : ¬ t = p := fun h => hne h.symm
  have h2 : strLt t p = false := strLt_prefix_ge hpt
  have h4 : startswith t (p ++ [c]) = true := (startswith_iff _ _).mpr hu
  have h8 : strLt (p ++ [c]) p = false := strLt_prefix_ge (List.prefix_append p [c])
  by_cases h10 : t = p ++ [c]
  · subst h10
    simp [updateAll, updateTerm, shadowed, sharing, mapFind, mapSet, mapErase, suInsert,
      suErase, suGet, setInsert, setErase, h2, h4, h8]
  · have h11 : ¬ p ++ [c] = t := fun h => h10 h.symm
    simp [updateAll, updateTerm, shadowed, sharing, mapFind, mapSet, mapErase, suInsert,
      suErase, suGet, setInsert, setErase, h1, h2, h4, h8, h10, h11, hne]

theorem updateAll_sharing_diverged {p t : Str} {c : Char} (hne : p ≠ t)
    (hu : ¬ p ++ [c] <+: t) : updateAll [p, t] c (sharing p t p) = diverged p c := by
  have h1 : ¬ t = p := fun h => hne h.symm
  have h4 : startswith t (p ++ [c]) = false := by
    rw [Bool.eq_false_iff]
    exact fun h => hu ((startswith_iff _ _).mp h)
  have h10 : ¬ t = p ++ [c] := fun h => hu (h ▸ List.prefix_refl _)
  simp [updateAll, updateTerm, diverged, sharing, mapFind, mapSet, mapErase, suInsert,
    suErase, suGet, setInsert, setErase, h1, h4, h10, hne]

theorem scan_cons (recurse : Str → Except Fault (List Str)) (V : List Str) (c : Char)
    (cs : Str) (st : Scan) :
    scan recurse V (c :: cs) st =
      match step recurse V st c with
      | .error e => .error e
      | .ok st' => scan recurse V cs st' := rfl

theorem scan_append (recurse : Str → Except Fault (List Str)) (V : List Str) (xs ys : Str)
    (st st' : Scan) (h : scan recurse V xs st = .ok st') :
    scan recurse V (xs ++ ys) st = scan recurse V ys st' := by
  induction xs generalizing st with
  | nil => cases h; rfl
  | cons c xs ih =>
    simp only [List.cons_append]
    rw [scan_cons] at h ⊢
    split at h
    · cases h
    · next st1 h1 => exact ih st1 h

theorem pickCandidate_sharing {p t : Str} (hne : p ≠ t) (u : Str) :
    pickCandidate (sharing p t u) (sharing p t u).matched [] = .ok [] := by
  by_cases h : u = p
  · subst h
    simp [sharing, pickCandidate, considerMatch, mapFind, suGet]
  · simp [sharing, pickCandidate, h]

theorem step_sharing (recurse : Str → Except Fault (List Str)) {p t : Str} (hne : p ≠ t)
    {st : Scan} {c : Char} {u : Str} (h : updateAll [p, t] c st = sharing p t u) :
    step recurse [p, t] st c = .ok (sharing p t u) := by
  unfold step
  simp only [h, pickCandidate_sharing hne u]
  simp [emit]

theorem scan_sharing (recurse : Str → Except Fault (List Str)) {p t : Str} (hpt : p <+: t)
    (hne : p ≠ t) :
    ∀ (rest u : Str), u ++ rest <+: p →
      scan recurse [p, t] rest (sharing p t u) = .ok (sharing p t (u ++ rest)) := by
  intro rest
  induction rest with
  | nil => intro u _; simp [scan]
  | cons c rest ih =>
    intro u hu
    have h1 : u ++ [c] <+: p := by
      have : u ++ c :: rest = (u ++ [c]) ++ rest := by simp
      rw [this] at hu
      exact (List.prefix_append _ _).trans hu
    rw [scan_cons]
    rw [step_sharing recurse hne (updateAll_sharing h1 hpt hne)]
    have := ih (u ++ [c]) (by simpa using hu)
    simpa using this

/-- What the candidate selection and the emission make of the state `shadowed p t u`. -/
theorem after_shadowed (recurse : Str → Except Fault (List Str)) {p t u : Str}
    (hp : p ≠ []) (hpu : p <+: u) (hup : u ≠ p) (hut : u <+: t) {st : Scan} {c : Char}
    (h : updateAll [p, t] c st = shadowed p t u) :
    step recurse [p, t] st c = .ok (if u = t then idle [t] [] else shadowed p t u) := by
  have h1 : (find p u).isSome = true := by rw [find_prefix_zero hpu]; rfl
  have h2 : ¬ p = u := fun h => hup h.symm
  unfold step
  simp only [h]
  by_cases h3 : u = t
  · subst h3
    have h4 : find u p = none := by
      apply find_none_of_length_lt
      rcases Nat.lt_or_ge p.length u.length with h5 | h5
      · exact h5
      · exact absurd (List.IsPrefix.eq_of_length_le hpu h5).symm hup
    have h5 : 0 < u.length := by
      rcases Nat.eq_zero_or_pos u.length with h6 | h6
      · have : u = [] := List.length_eq_zero.mp h6
        subst this
        exact absurd (List.prefix_nil.mp hpu) hp
      · exact h6
    have h6 : u ≠ [] := fun h => by simp [h] at h5
    simp [shadowed, pickCandidate, considerMatch, mapFind, suGet, contained, h1, h2, hup, h4,
      h5, emit, rsplit_self, cleanup, cleanupEntry, find_prefix_zero hpu,
      find_prefix_zero (List.prefix_refl u), mapErase, setErase, idle, h6]
  · simp [shadowed, pickCandidate, considerMatch, mapFind, suGet, contained, h1, h2, hup, h3,
      emit]

theorem scan_shadowed (recurse : Str → Except Fault (List Str)) {p t : Str} (hp : p ≠ [])
    (hne : p ≠ t) :
    ∀ (rest u : Str), p <+: u → u ≠ p → u ≠ t → u ++ rest = t →
      scan recurse [p, t] rest (shadowed p t u) = .ok (idle [t] []) := by
  intro rest
  induction rest with
  | nil => intro u _ _ hut h; simp at h; exact absurd h hut
  | cons c rest ih =>
    intro u hpu hup hut h
    have h0 : (u ++ [c]) ++ rest = t := by simpa using h
    have h1 : u ++ [c] <+: t := ⟨rest, h0⟩
    have h2 : p <+: u ++ [c] := hpu.trans (List.prefix_append u [c])
    have h3 : u ++ [c] ≠ p := by
      intro h4
      have := hpu.length_le
      rw [← h4] at this
      simp at this
    rw [scan_cons]
    rw [after_shadowed recurse hp h2 h3 h1 (updateAll_shadowed hpu hup hut h1 hne)]
    by_cases h4 : u ++ [c] = t
    · have : rest = [] := by
        rw [← h4] at h0
        simpa using h0
      subst this
      simp [h4, scan]
    · simp only [h4, if_false]
      exact ih (u ++ [c]) h2 h3 h4 h0

theorem tokenizeFuel_longest (fuel : Nat) (p t : Str) (hp : p ≠ []) (hpt : p <+: t)
    (hne : p ≠ t) : tokenizeFuel (fuel + 1) t [p, t] = .ok [t] := by
  obtain ⟨q, hq⟩ := hpt
  have hpt : p <+: t := ⟨q, hq⟩
  cases p with
  | nil => exact absurd rfl hp
  | cons a p' =>
    cases q with
    | nil => simp at hq; exact absurd hq hne
    | cons d q' =>
      have hscan : scan (fun pre => tokenizeFuel fuel pre [a :: p', t]) [a :: p', t] t Scan.init
          = .ok (idle [t] []) := by
        set recurse := fun pre => tokenizeFuel fuel pre [a :: p', t]
        have e1 : t = [a] ++ (p' ++ (d :: q')) := by rw [← hq]; simp
        have s1 : scan recurse [a :: p', t] [a] Scan.init = .ok (sharing (a :: p') t [a]) := by
          rw [scan_cons]
          rw [step_sharing recurse hne (updateAll_init_sharing (p := a :: p') (c := a)
            ⟨p', rfl⟩ hpt hne)]
          rfl
        have s2 := scan_sharing recurse hpt hne p' [a] (by simp)
        have s3 : scan recurse [a :: p', t] (d :: q') (sharing (a :: p') t (a :: p'))
            = .ok (idle [t] []) := by
          have hd : (a :: p') ++ [d] <+: t := ⟨q', by rw [← hq]; simp⟩
          rw [scan_cons]
          rw [after_shadowed recurse hp (List.prefix_append _ _) (by simp) hd
            (updateAll_sharing_shadowed hd hne)]
          by_cases h4 : (a :: p') ++ [d] = t
          · have : q' = [] := by
              rw [← h4] at hq
              simpa using hq
            subst this
            simp [h4, scan]
          · simp only [h4, if_false]
            exact scan_shadowed recurse hp hne q' _ (List.prefix_append _ _) (by simp) h4
              (by rw [← hq]; simp)
        have e2 : scan recurse [a :: p', t] t Scan.init
            = scan recurse [a :: p', t] ([a] ++ (p' ++ (d :: q'))) Scan.init :=
          congrArg (fun x => scan recurse [a :: p', t] x Scan.init) e1
        rw [e2, scan_append recurse _ [a] _ _ _ s1, scan_append recurse _ p' _ _ _ s2]
        exact s3
      unfold tokenizeFuel
      rw [hscan]
      have ht : t ≠ [] := by rw [← hq]; simp
      simp [flush, flushMatches, idle]

theorem rfindPos_spec {a b : Str} {i : Nat} (h : rfindPos a b = some i) : a <+: b.drop i := by
  induction b generalizing i with
  | nil =>
    unfold rfindPos at h
    split at h
    · next h1 => simp [h1]
    · cases h
  | cons d b ih =>
    unfold rfindPos at h
    split at h
    · next p hp => cases h; simpa using ih hp
    · split at h
      · next h1 => cases h; simpa using (startswith_iff _ _).mp h1
      · cases h

theorem head_eq_of_cons_eq_append {a c : Char} {l : Str} (h : a :: l = l ++ [c]) : a = c := by
  induction l generalizing a with
  | nil => simpa using h
  | cons b l ih =>
    simp only [List.cons_append, List.cons.injEq] at h
    obtain ⟨h1, h2⟩ := h
    rw [h1]
    exact ih h2

theorem rfindPos_append_char {p : Str} {c : Char} (hp : p ≠ []) (hc : p.head? ≠ some c) :
    rfindPos p (p ++ [c]) = some 0 := by
  have h1 := rfindPos_prefix_isSome (List.prefix_append p [c])
  cases h2 : rfindPos p (p ++ [c]) with
  | none => simp [h2] at h1
  | some i =>
    have h3 := rfindPos_bound h2
    simp only [List.length_append, List.length_singleton] at h3
    have h4 := rfindPos_spec h2
    rcases Nat.eq_zero_or_pos i with h5 | h5
    · rw [h5]
    · have h6 : i = 1 := by omega
      subst h6
      cases p with
      | nil => exact absurd rfl hp
      | cons a p' =>
        exfalso
        simp only [List.cons_append, List.drop_succ_cons, List.drop_zero] at h4
        have h7 : a :: p' = p' ++ [c] := List.IsPrefix.eq_of_length_le h4 (by simp)
        exact hc (by rw [head_eq_of_cons_eq_append h7]; rfl)

theorem rsplit_append_char {p : Str} {c : Char} (hp : p ≠ []) (hc : p.head? ≠ some c) :
    rsplit (p ++ [c]) p = .ok ([], [c]) := by
  simp [rsplit, rfind, rfindEnd, rfindPos_append_char hp hc, substr]

theorem after_diverged (recurse : Str → Except Fault (List Str)) {p t : Str} {c : Char}
    (hp : p ≠ []) (hc : p.head? ≠ some c) {st : Scan}
    (h : updateAll [p, t] c st = diverged p c) :
    step recurse [p, t] st c = .ok (idle [p] [c]) := by
  have h5 : 0 < p.length := List.length_pos.mpr hp
  unfold step
  simp only [h]
  simp [diverged, pickCandidate, considerMatch, mapFind, suGet, contained, h5, emit,
    rsplit_append_char hp hc, cleanup, cleanupEntry, find_prefix_zero (List.prefix_refl p),
    mapErase, setErase, idle, hp]

theorem tokenizeFuel_shadowed_discarded (fuel : Nat) (p t : Str) (c : Char) (hp : p ≠ [])
    (hpt : p <+: t) (hne : p ≠ t) (hd : ¬ p ++ [c] <+: t) (hc : p.head? ≠ some c) :
    tokenizeFuel (fuel + 1) (p ++ [c]) [p, t] = .ok [p, [c]] := by
  cases p with
  | nil => exact absurd rfl hp
  | cons a p' =>
    have hscan : scan (fun pre => tokenizeFuel fuel pre [a :: p', t]) [a :: p', t]
        ((a :: p') ++ [c]) Scan.init = .ok (idle [a :: p'] [c]) := by
      set recurse := fun pre => tokenizeFuel fuel pre [a :: p', t]
      have s1 : scan recurse [a :: p', t] [a] Scan.init = .ok (sharing (a :: p') t [a]) := by
        rw [scan_cons]
        rw [step_sharing recurse hne (updateAll_init_sharing (p := a :: p') (c := a)
          ⟨p', rfl⟩ hpt hne)]
        rfl
      have s2 := scan_sharing recurse hpt hne p' [a] (by simp)
      have s3 : scan recurse [a :: p', t] [c] (sharing (a :: p') t (a :: p'))
          = .ok (idle [a :: p'] [c]) := by
        rw [scan_cons, after_diverged recurse hp hc (updateAll_sharing_diverged hne hd)]
        rfl
      have e2 : (a :: p') ++ [c] = [a] ++ (p' ++ [c]) := by simp
      rw [e2, scan_append recurse _ [a] _ _ _ s1, scan_append recurse _ p' _ _ _ s2]
      exact s3
    unfold tokenizeFuel
    rw [hscan]
    simp [flush, flushMatches, idle]

/-- C3 (longest-match preference): for every pair of non-empty keyterms `p`, `t` with `p` a
proper prefix of `t`, `tokenize t [p, t]` returns the single token `t`. -/
theorem tokenize_longest_match (p t : Str) (hp : p ≠ []) (hpt : p <+: t) (hne : p ≠ t) :
    tokenize t [p, t] = .ok [t] :=
  tokenizeFuel_longest t.length p t hp hpt hne

/-- C3 at the keyterms "a" and "ab". -/
theorem tokenize_longest_match_witness :
    "a".toList ≠ [] ∧ "a".toList <+: "ab".toList ∧ "a".toList ≠ "ab".toList ∧
    tokenize "ab".toList ["a".toList, "ab".toList] = .ok ["ab".toList] :=
  ⟨by decide, by decide, by decide,
    tokenize_longest_match "a".toList "ab".toList (by decide) (by decide) (by decide)⟩

/-- C4 (shadowed-then-discarded partials): for all non-empty keyterms `p`, `t` with `p` a
proper prefix of `t` and every character `c` such that `p` followed by `c` is not a prefix
of `t` and `c` is not the first character of `p`, `tokenize (p ++ [c]) [p, t]` returns the
two tokens `p` and `c`. -/
theorem tokenize_shadowed_then_discarded (p t : Str) (c : Char) (hp : p ≠ [])
    (hpt : p <+: t) (hne : p ≠ t) (hd : ¬ p ++ [c] <+: t) (hc : p.head? ≠ some c) :
    tokenize (p ++ [c]) [p, t] = .ok [p, [c]] :=
  tokenizeFuel_shadowed_discarded (p ++ [c]).length p t c hp hpt hne hd hc

/-- C4 at the keyterms "cat" and "catalog" and the character 's'. -/
theorem tokenize_shadowed_then_discarded_witness :
    "cat".toList ≠ [] ∧ "cat".toList <+: "catalog".toList ∧
    "cat".toList ≠ "catalog".toList ∧ ¬ "cat".toList ++ ['s'] <+: "catalog".toList ∧
    "cat".toList.head? ≠ some 's' ∧
    tokenize ("cat".toList ++ ['s']) ["cat".toList, "catalog".toList]
      = .ok ["cat".toList, ['s']] :=
  ⟨by decide, by decide, by decide, by decide, by decide,
    tokenize_shadowed_then_discarded "cat".toList "catalog".toList 's' (by decide)
      (by decide) (by decide) (by decide) (by decide)⟩

/-! ## The order on strings, sorted sets and maps -/

theorem char_eq_of_toNat {x y : Char} (h : x.toNat = y.toNat) : x = y := by
  apply Char.le_antisymm
  · show x.val.toNat ≤ y.val.toNat
    exact Nat.le_of_eq h
  · show y.val.toNat ≤ x.val.toNat
    exact Nat.le_of_eq h.symm

theorem strLt_cons (x y : Char) (a b : Str) :
    strLt (x :: a) (y :: b) = true ↔
      x.toNat < y.toNat ∨ (x = y ∧ strLt a b = true) := by
  rw [show strLt (x :: a) (y :: b) = (if x.toNat < y.toNat then true
    else if y.toNat < x.toNat then false else strLt a b) from rfl]
  by_cases h1 : x.toNat < y.toNat
  · simp [h1]
  · by_cases h2 : y.toNat < x.toNat
    · simp only [h1, h2, if_false, if_true, false_or]
      constructor
      · intro h; cases h
      · rintro ⟨h3, _⟩; subst h3; omega
    · have : x = y := char_eq_of_toNat (by omega)
      subst this
      simp

theorem strLt_trans {a b c : Str} (h1 : strLt a b = true) (h2 : strLt b c = true) :
    strLt a c = true := by
  induction a generalizing b c with
  | nil =>
    cases c with
    | nil => cases b <;> simp [strLt] at h1 h2
    | cons z c => rfl
  | cons x a ih =>
    cases b with
    | nil => simp [strLt] at h1
    | cons y b =>
      cases c with
      | nil => simp [strLt] at h2
      | cons z c =>
        rw [strLt_cons] at h1 h2 ⊢
        rcases h1 with h1 | ⟨h1, h1'⟩ <;> rcases h2 with h2 | ⟨h2, h2'⟩
        · exact Or.inl (by omega)
        · subst h2; exact Or.inl h1
        · subst h1; exact Or.inl h2
        · subst h1; subst h2; exact Or.inr ⟨rfl, ih h1' h2'⟩

theorem strLt_total {a b : Str} (h1 : strLt a b = false) (h2 : a ≠ b) : strLt b a = true := by
  induction a generalizing b with
  | nil =>
    cases b with
    | nil => exact absurd rfl h2
    | cons y b => simp [strLt] at h1
  | cons x a ih =>
    cases b with
    | nil => rfl
    | cons y b =>
      rw [strLt_cons]
      have h3 : ¬ (x.toNat < y.toNat ∨ (x = y ∧ strLt a b = true)) := by
        rw [← strLt_cons, h1]; simp
      simp only [not_or, not_and] at h3
      rcases Nat.lt_or_ge y.toNat x.toNat with h4 | h4
      · exact Or.inl h4
      · have h5 : x = y := char_eq_of_toNat (by omega)
        subst h5
        refine Or.inr ⟨rfl, ih ?_ ?_⟩
        · simpa using h3.2 rfl
        · intro h; exact h2 (by rw [h])

theorem strLt_asymm {a b : Str} (h1 : strLt a b = true) : strLt b a = false := by
  cases h : strLt b a with
  | false => rfl
  | true =>
    have := strLt_trans h1 h
    rw [strLt_irrefl] at this
    cases this

theorem strLt_ne {a b : Str} (h1 : strLt a b = true) : a ≠ b := by
  intro h
  subst h
  rw [strLt_irrefl] at h1
  cases h1

theorem mem_setInsert (x y : Str) (s : List Str) : y ∈ setInsert x s ↔ y = x ∨ y ∈ s := by
  induction s with
  | nil => simp [setInsert]
  | cons z s ih =>
    simp only [setInsert]
    split_ifs with h1 h2
    · subst h1; simp
    · simp
    · simp only [List.mem_cons, ih]
      tauto

theorem mem_setErase (x y : Str) (s : List Str) : y ∈ setErase x s ↔ y ≠ x ∧ y ∈ s := by
  simp [setErase, List.mem_filter, and_comm]

theorem setOk_setInsert (x : Str) {s : List Str} (h : SetOk s) : SetOk (setInsert x s) := by
  induction s with
  | nil => simp [setInsert, SetOk]
  | cons z s ih =>
    unfold SetOk at h ih ⊢
    rw [List.pairwise_cons] at h
    simp only [setInsert]
    split_ifs with h1 h2
    · exact List.pairwise_cons.mpr h
    · refine List.pairwise_cons.mpr ⟨?_, List.pairwise_cons.mpr h⟩
      intro y hy
      rcases List.mem_cons.mp hy with h3 | h3
      · rw [h3]; exact h2
      · exact strLt_trans h2 (h.1 y h3)
    · refine List.pairwise_cons.mpr ⟨?_, ih h.2⟩
      intro y hy
      rcases (mem_setInsert x y s).mp hy with h3 | h3
      · rw [h3]
        exact strLt_total (by simpa using h2) h1
      · exact h.1 y h3

theorem setOk_setErase (x : Str) {s : List Str} (h : SetOk s) : SetOk (setErase x s) :=
  List.Pairwise.filter _ h

theorem setOk_ext {s1 s2 : List Str} (h1 : SetOk s1) (h2 : SetOk s2)
    (h : ∀ x, x ∈ s1 ↔ x ∈ s2) : s1 = s2 := by
  induction s1 generalizing s2 with
  | nil =>
    cases s2 with
    | nil => rfl
    | cons y s2 => exact absurd ((h y).mpr (List.mem_cons_self y s2)) (List.not_mem_nil y)
  | cons x s1 ih =>
    cases s2 with
    | nil => exact absurd ((h x).mp (List.mem_cons_self x s1)) (List.not_mem_nil x)
    | cons y s2 =>
      unfold SetOk at h1 h2 ih
      rw [List.pairwise_cons] at h1 h2
      have hxy : x = y := by
        rcases List.mem_cons.mp ((h x).mp (List.mem_cons_self x s1)) with h3 | h3
        · exact h3
        · rcases List.mem_cons.mp ((h y).mpr (List.mem_cons_self y s2)) with h4 | h4
          · exact h4.symm
          · have a1 := h2.1 x h3
            have a2 := h1.1 y h4
            rw [strLt_asymm a1] at a2
            cases a2
      subst hxy
      congr 1
      apply ih h1.2 h2.2
      intro z
      constructor
      · intro hz
        rcases List.mem_cons.mp ((h z).mp (List.mem_cons_of_mem x hz)) with h3 | h3
        · exact absurd h3 (strLt_ne (h1.1 z hz)).symm
        · exact h3
      · intro hz
        rcases List.mem_cons.mp ((h z).mpr (List.mem_cons_of_mem x hz)) with h3 | h3
        · exact absurd h3 (strLt_ne (h2.1 z hz)).symm
        · exact h3

/-! ## Sorted maps -/

theorem mem_of_mapFind {V : Type} {k : Str} {v : V} {m : List (Str × V)}
    (h : mapFind k m = some v) : (k, v) ∈ m := by
  induction m with
  | nil => cases h
  | cons e m ih =>
    obtain ⟨a, b⟩ := e
    simp only [mapFind] at h
    split_ifs at h with h1
    · cases h; subst h1; exact List.mem_cons_self _ _
    · exact List.mem_cons_of_mem _ (ih h)

theorem mapFind_none_of_ne {V : Type} {k : Str} {m : List (Str × V)}
    (h : ∀ e ∈ m, e.1 ≠ k) : mapFind k m = none := by
  cases h1 : mapFind k m with
  | none => rfl
  | some v => exact absurd rfl (h _ (mem_of_mapFind h1))

theorem mapFind_of_mem {V : Type} {k : Str} {v : V} {m : List (Str × V)} (hm : MapOk m)
    (h : (k, v) ∈ m) : mapFind k m = some v := by
  induction m with
  | nil => cases h
  | cons e m ih =>
    obtain ⟨a, b⟩ := e
    unfold MapOk at hm ih
    rw [List.pairwise_cons] at hm
    simp only [mapFind]
    rcases List.mem_cons.mp h with h1 | h1
    · cases h1; simp
    · have : k ≠ a := (strLt_ne (hm.1 _ h1)).symm
      simp only [this, if_false]
      exact ih hm.2 h1

theorem mapOk_mapErase {V : Type} (k : Str) {m : List (Str × V)} (h : MapOk m) :
    MapOk (mapErase k m) :=
  List.Pairwise.filter _ h

theorem mem_mapSet {V : Type} {k : Str} {v : V} {m : List (Str × V)} {e : Str × V}
    (h : e ∈ mapSet k v m) : e = (k, v) ∨ e ∈ m := by
  induction m with
  | nil => simpa [mapSet] using h
  | cons a m ih =>
    obtain ⟨a1, a2⟩ := a
    simp only [mapSet] at h
    split_ifs at h with h1 h2
    · rcases List.mem_cons.mp h with h3 | h3
      · exact Or.inl h3
      · exact Or.inr (List.mem_cons_of_mem _ h3)
    · rcases List.mem_cons.mp h with h3 | h3
      · exact Or.inl h3
      · exact Or.inr h3
    · rcases List.mem_cons.mp h with h3 | h3
      · exact Or.inr (h3 ▸ List.mem_cons_self _ _)
      · rcases ih h3 with h4 | h4
        · exact Or.inl h4
        · exact Or.inr (List.mem_cons_of_mem _ h4)

theorem mapOk_mapSet {V : Type} (k : Str) (v : V) {m : List (Str × V)} (h : MapOk m) :
    MapOk (mapSet k v m) := by
  induction m with
  | nil => simp [mapSet, MapOk]
  | cons a m ih =>
    obtain ⟨a1, a2⟩ := a
    unfold MapOk at h ih ⊢
    rw [List.pairwise_cons] at h
    simp only [mapSet]
    split_ifs with h1 h2
    · subst h1
      exact List.pairwise_cons.mpr ⟨h.1, h.2⟩
    · refine List.pairwise_cons.mpr ⟨?_, List.pairwise_cons.mpr h⟩
      intro y hy
      rcases List.mem_cons.mp hy with h3 | h3
      · rw [h3]; exact h2
      · exact strLt_trans h2 (h.1 y h3)
    · refine List.pairwise_cons.mpr ⟨?_, ih h.2⟩
      intro y hy
      rcases mem_mapSet hy with h3 | h3
      · rw [h3]
        exact strLt_total (by simpa using h2) h1
      · exact h.1 y h3

theorem mapOk_ext {V : Type} {m1 m2 : List (Str × V)} (h1 : MapOk m1) (h2 : MapOk m2)
    (h : ∀ k, mapFind k m1 = mapFind k m2) : m1 = m2 := by
  induction m1 generalizing m2 with
  | nil =>
    cases m2 with
    | nil => rfl
    | cons e m2 =>
      have := h e.1
      simp [mapFind] at this
  | cons e1 m1 ih =>
    cases m2 with
    | nil =>
      have := h e1.1
      simp [mapFind] at this
    | cons e2 m2 =>
      obtain ⟨k1, v1⟩ := e1
      obtain ⟨k2, v2⟩ := e2
      unfold MapOk at h1 h2 ih
      rw [List.pairwise_cons] at h1 h2
      have hk : k1 = k2 := by
        by_contra hne
        have a1 := h k1
        have a2 := h k2
        have hne' : ¬ k2 = k1 := fun h => hne h.symm
        simp only [mapFind, if_true, hne, hne', if_false] at a1 a2
        have b1 := h2.1 _ (mem_of_mapFind a1.symm)
        have b2 := h1.1 _ (mem_of_mapFind a2)
        simp only at b1 b2
        rw [strLt_asymm b1] at b2
        cases b2
      subst hk
      have hv : v1 = v2 := by
        have a1 := h k1
        simpa [mapFind] using a1
      subst hv
      congr 1
      apply ih h1.2 h2.2
      intro k
      by_cases hk : k = k1
      · subst hk
        rw [mapFind_none_of_ne (fun e he => strLt_ne (h1.1 e he) |>.symm),
          mapFind_none_of_ne (fun e he => strLt_ne (h2.1 e he) |>.symm)]
      · have := h k
        simpa [mapFind, hk] using this

/-! ## The reverse index and the well-formed states -/

theorem suGet_setOk {su : List (Str × List Str)} (h : SuOk su) (key : Str) :
    SetOk (suGet key su) := by
  unfold suGet
  cases h1 : mapFind key su with
  | none => simp [SetOk]
  | some s => exact (h.2 _ (mem_of_mapFind h1)).1

theorem mem_mapErase {V : Type} {k : Str} {m : List (Str × V)} {e : Str × V}
    (h : e ∈ mapErase k m) : e ∈ m :=
  (List.mem_filter.mp h).1

theorem suOk_mapErase (key : Str) {su : List (Str × List Str)} (h : SuOk su) :
    SuOk (mapErase key su) :=
  ⟨mapOk_mapErase key h.1, fun e he => h.2 e (mem_mapErase he)⟩

theorem suOk_mapSet (key : Str) {s : List Str} (hs : SetOk s) (hne : s ≠ [])
    {su : List (Str × List Str)} (h : SuOk su) : SuOk (mapSet key s su) := by
  refine ⟨mapOk_mapSet key s h.1, fun e he => ?_⟩
  rcases mem_mapSet he with h1 | h1
  · rw [h1]; exact ⟨hs, hne⟩
  · exact h.2 e h1

theorem suOk_suErase (key term : Str) {su : List (Str × List Str)} (h : SuOk su) :
    SuOk (suErase key term su) := by
  unfold suErase
  simp only
  split_ifs with h1
  · exact suOk_mapErase key h
  · exact suOk_mapSet key (setOk_setErase term (suGet_setOk h key))
      (by simpa using h1) h

theorem suOk_suInsert (key term : Str) {su : List (Str × List Str)} (h : SuOk su) :
    SuOk (suInsert key term su) := by
  unfold suInsert
  refine suOk_mapSet key (setOk_setInsert term (suGet_setOk h key)) ?_ h
  intro h1
  have := (mem_setInsert term term (suGet key su)).mpr (Or.inl rfl)
  rw [h1] at this
  exact absurd this (List.not_mem_nil _)

theorem mem_suGet_suErase (key term s t : Str) (su : List (Str × List Str)) :
    t ∈ suGet s (suErase key term su) ↔ t ∈ suGet s su ∧ ¬ (s = key ∧ t = term) := by
  unfold suErase
  simp only
  split_ifs with h1
  · unfold suGet
    rw [mapFind_mapErase]
    by_cases h2 : s = key
    · subst h2
      simp only [if_true, Option.getD_none, List.not_mem_nil, true_and, false_iff, not_and,
        not_not]
      intro h3
      by_contra h4
      have : t ∈ setErase term (suGet s su) := (mem_setErase term t _).mpr ⟨h4, h3⟩
      rw [List.isEmpty_iff.mp h1] at this
      exact absurd this (List.not_mem_nil _)
    · simp [h2]
  · unfold suGet
    rw [mapFind_mapSet]
    by_cases h2 : s = key
    · subst h2
      simp only [if_true, Option.getD_some, true_and]
      rw [mem_setErase]
      tauto
    · simp [h2]

theorem mem_suGet_suInsert (key term s t : Str) (su : List (Str × List Str)) :
    t ∈ suGet s (suInsert key term su) ↔ t ∈ suGet s su ∨ (s = key ∧ t = term) := by
  unfold suInsert
  conv => lhs; unfold suGet
  rw [mapFind_mapSet]
  by_cases h2 : s = key
  · subst h2
    simp only [if_true, Option.getD_some, true_and]
    rw [mem_setInsert]
    tauto
  · simp [h2, suGet]

theorem suOk_ext {su1 su2 : List (Str × List Str)} (h1 : SuOk su1) (h2 : SuOk su2)
    (h : ∀ s t, t ∈ suGet s su1 ↔ t ∈ suGet s su2) : su1 = su2 := by
  apply mapOk_ext h1.1 h2.1
  intro s
  have key : ∀ {a b : List (Str × List Str)}, SuOk a → SuOk b →
      (∀ t, t ∈ suGet s a ↔ t ∈ suGet s b) → ∀ x, mapFind s a = some x →
      mapFind s b = some x := by
    intro a b ha hb hab x hx
    have hx' := ha.2 _ (mem_of_mapFind hx)
    simp only at hx'
    cases hb' : mapFind s b with
    | none =>
      exfalso
      obtain ⟨t, ht⟩ := List.exists_mem_of_ne_nil x hx'.2
      have := (hab t).mp (by simpa [suGet, hx] using ht)
      simp [suGet, hb'] at this
    | some y =>
      have hy' := hb.2 _ (mem_of_mapFind hb')
      simp only at hy'
      congr 1
      apply setOk_ext hy'.1 hx'.1
      intro t
      have := hab t
      simp only [suGet, hx, hb', Option.getD_some] at this
      exact this.symm
  cases hx : mapFind s su1 with
  | none =>
    cases hy : mapFind s su2 with
    | none => rfl
    | some y =>
      have := key h2 h1 (fun t => (h s t).symm) y hy
      rw [hx] at this
      cases this
  | some x => exact (key h1 h2 (h s) x hx).symm

/-! ## The keyterm updates commute -/

theorem updateTerm_result (c : Char) (st : Scan) (x : Str) :
    (updateTerm c st x).result = st.result := by
  unfold updateTerm
  cases mapFind x st.usages <;> simp only [] <;> split_ifs <;> rfl

theorem updateTerm_sequence (c : Char) (st : Scan) (x : Str) :
    (updateTerm c st x).sequence = st.sequence := by
  unfold updateTerm
  cases mapFind x st.usages <;> simp only [] <;> split_ifs <;> rfl

theorem updateTerm_ok (c : Char) {st : Scan} (h : st.Ok) (x : Str) :
    (updateTerm c st x).Ok := by
  obtain ⟨h1, h2, h3⟩ := h
  unfold updateTerm
  cases mapFind x st.usages <;> simp only [] <;> split_ifs <;>
    refine ⟨?_, ?_, ?_⟩ <;>
    first
      | assumption
      | exact mapOk_mapSet _ _ h1
      | exact mapOk_mapErase _ h1
      | exact suOk_suInsert _ _ h2
      | exact suOk_suInsert _ _ (suOk_suErase _ _ h2)
      | exact suOk_suErase _ _ h2
      | exact setOk_setInsert _ h3

theorem updateTerm_frame (c : Char) (st : Scan) {x y : Str} (hne : y ≠ x) :
    SameAt y (updateTerm c st x) st := by
  unfold updateTerm SameAt
  cases mapFind x st.usages <;> simp only [] <;> split_ifs <;>
    simp [mapFind_mapSet, mapFind_mapErase, mem_setInsert, mem_suGet_suInsert,
      mem_suGet_suErase, hne]

theorem updateTerm_cong (c : Char) {st st' : Scan} {x : Str} (h : SameAt x st st') :
    SameAt x (updateTerm c st x) (updateTerm c st' x) := by
  obtain ⟨h1, h2, h3⟩ := h
  unfold updateTerm SameAt
  rw [h1]
  by_cases hm : x ∈ st'.matched
  · have hm' : x ∈ st.matched := h2.mpr hm
    cases mapFind x st'.usages <;> simp only [hm, hm', if_true] <;> split_ifs <;>
      simp [mem_setInsert, h1, h2, h3]
  · have hm' : x ∉ st.matched := fun h => hm (h2.mp h)
    cases mapFind x st'.usages <;> simp only [hm, hm', if_false] <;> split_ifs <;>
      simp [mapFind_mapSet, mapFind_mapErase, mem_setInsert, mem_suGet_suInsert,
        mem_suGet_suErase, h1, h2, h3, hm, hm']

theorem SameAt.symm {x : Str} {a b : Scan} (h : SameAt x a b) : SameAt x b a :=
  ⟨h.1.symm, h.2.1.symm, fun s => (h.2.2 s).symm⟩

theorem SameAt.trans {x : Str} {a b c : Scan} (h : SameAt x a b) (h' : SameAt x b c) :
    SameAt x a c :=
  ⟨h.1.trans h'.1, h.2.1.trans h'.2.1, fun s => (h.2.2 s).trans (h'.2.2 s)⟩

theorem Scan.ext_of_sameAt {a b : Scan} (ha : a.Ok) (hb : b.Ok) (hr : a.result = b.result)
    (hs : a.sequence = b.sequence) (h : ∀ x, SameAt x a b) : a = b := by
  have e1 : a.usages = b.usages := mapOk_ext ha.usages hb.usages (fun k => (h k).1)
  have e2 : a.matched = b.matched := setOk_ext ha.matched hb.matched (fun k => (h k).2.1)
  have e3 : a.string_usages = b.string_usages :=
    suOk_ext ha.string_usages hb.string_usages (fun s t => (h t).2.2 s)
  cases a
  cases b
  simp only at hr hs e1 e2 e3
  simp [hr, hs, e1, e2, e3]

/-- The updates of two different keyterms commute. -/
theorem updateTerm_comm (c : Char) {st : Scan} (h : st.Ok) {x y : Str} (hne : x ≠ y) :
    updateTerm c (updateTerm c st x) y = updateTerm c (updateTerm c st y) x := by
  apply Scan.ext_of_sameAt (updateTerm_ok c (updateTerm_ok c h x) y)
    (updateTerm_ok c (updateTerm_ok c h y) x)
  · simp [updateTerm_result]
  · simp [updateTerm_sequence]
  · intro z
    by_cases hzy : z = y
    · subst hzy
      exact (updateTerm_cong c (updateTerm_frame c st (Ne.symm hne))).trans
        (updateTerm_frame c (updateTerm c st z) (Ne.symm hne)).symm
    · by_cases hzx : z = x
      · subst hzx
        exact (updateTerm_frame c (updateTerm c st z) hne).trans
          (updateTerm_cong c (updateTerm_frame c st hne)).symm
      · exact ((updateTerm_frame c (updateTerm c st x) hzy).trans
          (updateTerm_frame c st hzx)).trans
          ((updateTerm_frame c (updateTerm c st y) hzx).trans
            (updateTerm_frame c st hzy)).symm

theorem foldl_updateTerm_ok (c : Char) (V : List Str) {st : Scan} (h : st.Ok) :
    (V.foldl (updateTerm c) st).Ok := by
  induction V generalizing st with
  | nil => exact h
  | cons x V ih => exact ih (updateTerm_ok c h x)

theorem foldl_updateTerm_perm (c : Char) {V V' : List Str} (hp : V.Perm V') :
    ∀ {st : Scan}, st.Ok → V.foldl (updateTerm c) st = V'.foldl (updateTerm c) st := by
  induction hp with
  | nil => intro st _; rfl
  | cons x _ ih => intro st h; exact ih (updateTerm_ok c h x)
  | swap x y l =>
    intro st h
    simp only [List.foldl_cons]
    by_cases hxy : x = y
    · subst hxy; rfl
    · rw [updateTerm_comm c h (Ne.symm hxy)]
  | trans _ _ ih1 ih2 => intro st h; exact (ih1 h).trans (ih2 h)

theorem updateAll_perm (c : Char) {V V' : List Str} (hp : V.Perm V') {st : Scan}
    (h : st.Ok) : updateAll V c st = updateAll V' c st :=
  foldl_updateTerm_perm c hp ⟨h.usages, h.string_usages, h.matched⟩

theorem updateAll_ok (c : Char) (V : List Str) {st : Scan} (h : st.Ok) :
    (updateAll V c st).Ok :=
  foldl_updateTerm_ok c V ⟨h.usages, h.string_usages, h.matched⟩

theorem Scan.init_ok : Scan.init.Ok :=
  ⟨List.Pairwise.nil, ⟨List.Pairwise.nil, fun _ h => absurd h (List.not_mem_nil _)⟩,
    List.Pairwise.nil⟩

theorem mapOk_foldl_mapErase {V : Type} (ts : List Str) {m : List (Str × V)} (h : MapOk m) :
    MapOk (ts.foldl (fun u t => mapErase t u) m) := by
  induction ts generalizing m with
  | nil => exact h
  | cons t ts ih => exact ih (mapOk_mapErase t h)

theorem cleanupEntry_ok (term : Str) {st : Scan} (h : st.Ok) (e : Str × List Str) :
    (cleanupEntry term st e).Ok := by
  obtain ⟨h1, h2, h3⟩ := h
  unfold cleanupEntry
  simp only
  split_ifs <;> refine ⟨?_, ?_, ?_⟩ <;>
    first
      | assumption
      | exact mapOk_foldl_mapErase _ h1
      | exact suOk_mapErase _ h2
      | exact setOk_setErase _ h3

theorem foldl_cleanupEntry_ok (term : Str) (es : List (Str × List Str)) {st : Scan}
    (h : st.Ok) : (es.foldl (cleanupEntry term) st).Ok := by
  induction es generalizing st with
  | nil => exact h
  | cons e es ih => exact ih (cleanupEntry_ok term h e)

theorem cleanup_ok (term : Str) {st : Scan} (h : st.Ok) : (cleanup term st).Ok :=
  foldl_cleanupEntry_ok term _ h

theorem emit_ok {recurse : Str → Except Fault (List Str)} {st st' : Scan} {candidate : Str}
    (h : st.Ok) (he : emit recurse st candidate = .ok st') : st'.Ok := by
  unfold emit at he
  split_ifs at he with h1
  · cases he; exact h
  · split at he
    · cases he
    · split at he
      · cases he
      · next pre suffix _ prefix_result _ =>
        cases he
        have := @cleanup_ok candidate
          { st with result := st.result ++ prefix_result ++ [candidate] }
          ⟨h.usages, h.string_usages, h.matched⟩
        exact ⟨this.usages, this.string_usages, this.matched⟩

theorem step_ok {recurse : Str → Except Fault (List Str)} {V : List Str} {st st' : Scan}
    {c : Char} (h : st.Ok) (hs : step recurse V st c = .ok st') : st'.Ok := by
  unfold step at hs
  simp only at hs
  split at hs
  · cases hs
  · exact emit_ok (updateAll_ok c V h) hs

theorem step_perm (recurse : Str → Except Fault (List Str)) {V V' : List Str}
    (hp : V.Perm V') {st : Scan} (h : st.Ok) (c : Char) :
    step recurse V st c = step recurse V' st c := by
  unfold step
  rw [updateAll_perm c hp h]

theorem scan_perm (recurse : Str → Except Fault (List Str)) {V V' : List Str}
    (hp : V.Perm V') (text : Str) {st : Scan} (h : st.Ok) :
    scan recurse V text st = scan recurse V' text st := by
  induction text generalizing st with
  | nil => rfl
  | cons c cs ih =>
    rw [scan_cons, scan_cons, step_perm recurse hp h c]
    cases hs : step recurse V' st c with
    | error e => rfl
    | ok st' =>
      simp only
      exact ih (step_ok h hs)

theorem tokenizeFuel_perm (fuel : Nat) (text : Str) {V V' : List Str} (hp : V.Perm V') :
    tokenizeFuel fuel text V = tokenizeFuel fuel text V' := by
  induction fuel generalizing text with
  | zero => rfl
  | succ n ih =>
    unfold tokenizeFuel
    have : (fun pre => tokenizeFuel n pre V) = (fun pre => tokenizeFuel n pre V') :=
      funext (fun pre => ih pre)
    rw [this, scan_perm _ hp text Scan.init_ok]

/-- C9 (vocabulary order does not matter): for every text, every vocabulary `V` and every
permutation `V'` of `V`, `tokenize text V' = tokenize text V`. -/
theorem tokenize_perm (text : Str) (V V' : List Str) (hp : V'.Perm V) :
    tokenize text V' = tokenize text V :=
  tokenizeFuel_perm (text.length + 1) text hp

/-- C9 at the text "ab" and the two orders of the vocabulary "a", "ab". -/
theorem tokenize_perm_witness :
    ["ab".toList, "a".toList].Perm ["a".toList, "ab".toList] ∧
    tokenize "ab".toList ["ab".toList, "a".toList]
      = tokenize "ab".toList ["a".toList, "ab".toList] :=
  ⟨List.Perm.swap _ _ _, tokenize_perm "ab".toList ["a".toList, "ab".toList]
    ["ab".toList, "a".toList] (List.Perm.swap _ _ _)⟩

/-! ## The split at a character -/

theorem splitAtChar_pxqxr :
    splitAtChar 'x' "pxqxr".toList
      = ["p".toList, "x".toList, "q".toList, "x".toList, "r".toList] := by
  decide

/-- The tokens of the split spell the text. -/
theorem flatten_splitRuns (x : Char) (rest run : Str) :
    (splitRuns x run rest).flatten = run ++ rest := by
  induction rest generalizing run with
  | nil => by_cases h : run = [] <;> simp [splitRuns, h]
  | cons c rest ih =>
    by_cases hc : c = x
    · subst hc
      by_cases h : run = [] <;> simp [splitRuns, h, ih]
    · simp [splitRuns, hc, ih]

/-- Every token of the split is the keyterm or a non-empty run without it. -/
theorem splitRuns_token (x : Char) (rest run : Str) (hx : x ∉ run) :
    ∀ tok ∈ splitRuns x run rest, tok = [x] ∨ (tok ≠ [] ∧ x ∉ tok) := by
  induction rest generalizing run with
  | nil =>
    intro tok htok
    by_cases h : run = []
    · simp [splitRuns, h] at htok
    · simp only [splitRuns, h, if_false, List.mem_singleton] at htok
      subst htok
      exact Or.inr ⟨h, hx⟩
  | cons c rest ih =>
    intro tok htok
    by_cases hc : c = x
    · subst hc
      simp only [splitRuns, if_true, List.mem_append, List.mem_cons] at htok
      rcases htok with h1 | h1 | h1
      · by_cases h : run = []
        · simp [h] at h1
        · simp only [h, if_false, List.mem_singleton] at h1
          subst h1
          exact Or.inr ⟨h, hx⟩
      · exact Or.inl h1
      · exact ih [] (List.not_mem_nil c) tok h1
    · simp only [splitRuns, hc, if_false] at htok
      refine ih (run ++ [c]) ?_ tok htok
      simp only [List.mem_append, List.mem_singleton, not_or]
      exact ⟨hx, fun h => hc h.symm⟩

/-- The runs of the split are maximal: of two neighbouring tokens one is the keyterm. -/
theorem splitRuns_chain (x : Char) (rest run : Str) :
    List.Chain' (fun a b : Str => a = [x] ∨ b = [x]) (splitRuns x run rest) := by
  induction rest generalizing run with
  | nil => by_cases h : run = [] <;> simp [splitRuns, h]
  | cons c rest ih =>
    by_cases hc : c = x
    · subst hc
      have h1 : List.Chain' (fun a b : Str => a = [c] ∨ b = [c])
          ([c] :: splitRuns c [] rest) :=
        List.chain'_cons'.mpr ⟨fun _ _ => Or.inl rfl, ih []⟩
      by_cases h : run = []
      · simpa [splitRuns, h] using h1
      · simp only [splitRuns, h, if_false, if_true, List.singleton_append]
        exact List.chain'_cons.mpr ⟨Or.inr rfl, h1⟩
    · simpa [splitRuns, hc] using ih (run ++ [c])

/-! ## The rightmost split -/

theorem rfindPos_none {a b : Str} (h : rfindPos a b = none) :
    ∀ j, ¬ a <+: b.drop j := by
  induction b with
  | nil =>
    intro j hj
    unfold rfindPos at h
    split at h
    · cases h
    · next h1 => exact h1 (List.prefix_nil.mp (by simpa using hj))
  | cons d b ih =>
    intro j hj
    unfold rfindPos at h
    split at h
    · cases h
    · next h1 =>
      split at h
      · cases h
      · next h2 =>
        cases j with
        | zero => exact h2 ((startswith_iff _ _).mpr (by simpa using hj))
        | succ j => exact ih h1 j (by simpa using hj)

theorem rfindPos_last {a b : Str} {i : Nat} (h : rfindPos a b = some i) (ha : a ≠ []) :
    ∀ j, i < j → ¬ a <+: b.drop j := by
  induction b generalizing i with
  | nil =>
    unfold rfindPos at h
    split at h
    · next h1 => exact absurd h1 ha
    · cases h
  | cons d b ih =>
    intro j hij hj
    unfold rfindPos at h
    split at h
    · next p hp =>
      cases h
      cases j with
      | zero => omega
      | succ j => exact ih hp j (by omega) (by simpa using hj)
    · next h1 =>
      cases j with
      | zero => omega
      | succ j => exact rfindPos_none h1 j (by simpa using hj)

theorem rfindPos_infix_isSome {a b : Str} (h : a <:+: b) : (rfindPos a b).isSome := by
  cases h1 : rfindPos a b with
  | some i => rfl
  | none =>
    exfalso
    obtain ⟨s, t, hst⟩ := h
    apply rfindPos_none h1 s.length
    rw [← hst]
    simp

theorem rsplit_found {a b : Str} {i : Nat} (h : rfindPos a b = some i) :
    rsplit b a = .ok (b.take i, b.drop (i + a.length)) ∧
    b.take i ++ a ++ b.drop (i + a.length) = b := by
  have h1 := rfindPos_bound h
  have h2 := rfindPos_spec h
  constructor
  · have e1 : ¬ b.length < i + a.length := by omega
    have e2 : min i b.length = i := by omega
    simp [rsplit, rfind, rfindEnd, h, substr, e1, e2]
  · obtain ⟨r, hr⟩ := h2
    have e3 : b.drop (i + a.length) = r := by
      rw [← List.drop_drop, ← hr]
      simp
    rw [e3, List.append_assoc, hr, List.take_append_drop]

/-- C14 (rightmost split): for every sequence and every non-empty term that occurs in it,
`rsplit` returns a prefix and a suffix with `prefix ++ term ++ suffix = sequence`, and the
term does not occur in the sequence at any position greater than the length of the
prefix. -/
theorem rsplit_rightmost (sequence term : Str) (hne : term ≠ []) (hocc : term <:+: sequence) :
    ∃ pre suffix, rsplit sequence term = .ok (pre, suffix) ∧
      pre ++ term ++ suffix = sequence ∧
      ∀ j, pre.length < j → ¬ term <+: sequence.drop j := by
  have h1 := rfindPos_infix_isSome hocc
  cases h2 : rfindPos term sequence with
  | none => simp [h2] at h1
  | some i =>
    obtain ⟨e1, e2⟩ := rsplit_found h2
    refine ⟨sequence.take i, sequence.drop (i + term.length), e1, e2, ?_⟩
    intro j hj
    have hb := rfindPos_bound h2
    rw [List.length_take, Nat.min_eq_left (by omega)] at hj
    exact rfindPos_last h2 hne j hj

/-- C14 at the sequence "abcab" and the term "ab". -/
theorem rsplit_rightmost_witness :
    "ab".toList ≠ [] ∧ "ab".toList <:+: "abcab".toList ∧
    ∃ pre suffix, rsplit "abcab".toList "ab".toList = .ok (pre, suffix) ∧
      pre ++ "ab".toList ++ suffix = "abcab".toList ∧
      ∀ j, pre.length < j → ¬ "ab".toList <+: "abcab".toList.drop j :=
  ⟨by decide, by decide, rsplit_rightmost "abcab".toList "ab".toList (by decide) (by decide)⟩

/-! ## The invariant of the scan -/

theorem Scan.init_inv : Scan.init.Inv :=
  ⟨Scan.init_ok, fun s t => by simp [Scan.init, suGet, mapFind],
    fun m hm => absurd hm (List.not_mem_nil m), fun t u h => by simp [Scan.init, mapFind] at h⟩

theorem startswith_self (a : Str) : startswith a a = true :=
  (startswith_iff a a).mpr (List.prefix_refl a)

theorem updateTerm_inv (c : Char) {st : Scan} (h : st.Inv) (x : Str) :
    (updateTerm c st x).Inv := by
  obtain ⟨h1, h2, h3, h4⟩ := h
  refine ⟨updateTerm_ok c h1 x, ?_, ?_, ?_⟩
  · unfold updateTerm
    cases hu : mapFind x st.usages <;> simp only [] <;> split_ifs <;> intro s t <;>
      simp only [mem_suGet_suInsert, mem_suGet_suErase, mapFind_mapSet, mapFind_mapErase,
        h2] <;>
      by_cases htx : t = x <;> simp [htx, hu] <;> tauto
  · have hs := startswith_self
    unfold updateTerm
    cases hu : mapFind x st.usages <;> simp only [] <;> split_ifs with a1 a2 a3 <;> intro m <;>
      (try simp only [mem_setInsert, mapFind_mapSet, mapFind_mapErase]) <;>
      intro hm <;> by_cases hmx : m = x <;> simp_all
  · unfold updateTerm
    cases hu : mapFind x st.usages <;> simp only [] <;> split_ifs with a1 a2 a3 <;>
      intro t u <;>
      (try simp only [mapFind_mapSet, mapFind_mapErase]) <;>
      by_cases htx : t = x <;> (try simp only [htx, if_true, if_false]) <;>
      first
        | exact h4 t u
        | exact h4 x u
        | (intro h5; cases h5; exact ⟨(startswith_iff _ _).mp (by assumption), by simp⟩)
        | (intro h5; cases h5)

theorem foldl_updateTerm_inv (c : Char) (V : List Str) {st : Scan} (h : st.Inv) :
    (V.foldl (updateTerm c) st).Inv := by
  induction V generalizing st with
  | nil => exact h
  | cons x V ih => exact ih (updateTerm_inv c h x)

theorem updateAll_inv (c : Char) (V : List Str) {st : Scan} (h : st.Inv) :
    (updateAll V c st).Inv :=
  foldl_updateTerm_inv c V
    ⟨⟨h.ok.usages, h.ok.string_usages, h.ok.matched⟩, h.inverse, h.matched_usage, h.tracked⟩

theorem mapFind_foldl_mapErase {V : Type} (ts : List Str) (m : List (Str × V)) (t : Str)
    (v : V) :
    mapFind t (ts.foldl (fun u t => mapErase t u) m) = some v ↔
      mapFind t m = some v ∧ t ∉ ts := by
  induction ts generalizing m with
  | nil => simp
  | cons a ts ih =>
    simp only [List.foldl_cons, ih, mapFind_mapErase, List.mem_cons, not_or]
    by_cases h : t = a <;> simp [h]

theorem mem_cleanupEntry_matched (term : Str) (st : Scan) (e : Str × List Str) (m : Str) :
    m ∈ (cleanupEntry term st e).matched ↔ m ∈ st.matched ∧ e.1 ≠ m := by
  have key : ∀ (M : List Str), (m ∈ (if e.1 ∈ M then setErase e.1 M else M)) ↔
      m ∈ M ∧ e.1 ≠ m := by
    intro M
    split_ifs with a
    · rw [mem_setErase]
      constructor
      · rintro ⟨b1, b2⟩; exact ⟨b2, fun h => b1 h.symm⟩
      · rintro ⟨b1, b2⟩; exact ⟨fun h => b2 h.symm, b1⟩
    · constructor
      · intro b; exact ⟨b, fun h => a (h ▸ b)⟩
      · rintro ⟨b, _⟩; exact b
  unfold cleanupEntry
  simp only
  split_ifs with a1 a2 a3
  · simpa [a2] using key st.matched
  · simpa [a2] using key st.matched
  · simpa [a3] using key st.matched
  · simpa [a3] using key st.matched

/-- What the clean-up loop leaves, entry by entry. -/
theorem foldl_cleanupEntry_spec (term : Str) (es : List (Str × List Str)) (st : Scan) :
    (es.foldl (cleanupEntry term) st).result = st.result ∧
    (es.foldl (cleanupEntry term) st).sequence = st.sequence ∧
    (∀ t u, mapFind t (es.foldl (cleanupEntry term) st).usages = some u ↔
      mapFind t st.usages = some u ∧ ¬ ∃ e ∈ es, (find e.1 term).isSome ∧ t ∈ e.2) ∧
    (∀ s x, mapFind s (es.foldl (cleanupEntry term) st).string_usages = some x ↔
      mapFind s st.string_usages = some x ∧
        ¬ ((∃ e ∈ es, e.1 = s) ∧ (find s term).isSome)) ∧
    (∀ m, m ∈ (es.foldl (cleanupEntry term) st).matched ↔
      m ∈ st.matched ∧ ∀ e ∈ es, e.1 ≠ m) := by
  induction es generalizing st with
  | nil => simp
  | cons e es ih =>
    obtain ⟨i1, i2, i3, i4, i5⟩ := ih (cleanupEntry term st e)
    simp only [List.foldl_cons]
    refine ⟨?_, ?_, ?_, ?_, ?_⟩
    · rw [i1]; unfold cleanupEntry; simp only; split_ifs <;> rfl
    · rw [i2]; unfold cleanupEntry; simp only; split_ifs <;> rfl
    · intro t u
      rw [i3]
      unfold cleanupEntry
      simp only
      split_ifs with a1 a2 a3 <;>
        simp only [mapFind_foldl_mapErase, List.mem_cons, exists_eq_or_imp, a1, not_or,
          true_and, Bool.false_eq_true, false_and, not_false_eq_true] <;> tauto
    · intro s x
      rw [i4]
      unfold cleanupEntry
      simp only
      split_ifs with a1 a2 a3 <;>
        simp only [mapFind_mapErase, List.mem_cons, exists_eq_or_imp] <;>
        by_cases hs : s = e.1 <;> simp_all <;> tauto
    · intro m
      rw [i5, mem_cleanupEntry_matched]
      simp only [List.mem_cons, forall_eq_or_imp]
      tauto

theorem mem_suGet_iff (s t : Str) (su : List (Str × List Str)) :
    t ∈ suGet s su ↔ ∃ x, mapFind s su = some x ∧ t ∈ x := by
  unfold suGet
  cases mapFind s su <;> simp

/-- After the clean-up no completed match is left. -/
theorem cleanup_matched {term : Str} {st : Scan} (h : st.Inv) :
    (cleanup term st).matched = [] := by
  apply List.eq_nil_iff_forall_not_mem.mpr
  intro m hm
  obtain ⟨_, _, _, _, i5⟩ := foldl_cleanupEntry_spec term st.string_usages st
  obtain ⟨h1, h2⟩ := (i5 m).mp hm
  have h3 := (h.inverse m m).mpr (h.matched_usage m h1)
  obtain ⟨x, hx, _⟩ := (mem_suGet_iff _ _ _).mp h3
  exact h2 _ (mem_of_mapFind hx) rfl

theorem cleanup_inv (term : Str) {st : Scan} (h : st.Inv) : (cleanup term st).Inv := by
  obtain ⟨_, _, i3, i4, _⟩ := foldl_cleanupEntry_spec term st.string_usages st
  refine ⟨cleanup_ok term h.ok, ?_, ?_, ?_⟩
  · intro s t
    unfold cleanup
    rw [mem_suGet_iff]
    constructor
    · rintro ⟨x, hx, htx⟩
      obtain ⟨a1, a2⟩ := (i4 s x).mp hx
      have a3 : ¬ (find s term).isSome = true :=
        fun a => a2 ⟨⟨_, mem_of_mapFind a1, rfl⟩, a⟩
      have a4 : mapFind t st.usages = some s :=
        (h.inverse s t).mp ((mem_suGet_iff _ _ _).mpr ⟨x, a1, htx⟩)
      refine (i3 t s).mpr ⟨a4, ?_⟩
      rintro ⟨e, he, b1, b2⟩
      have b3 := mapFind_of_mem h.ok.string_usages.1 (show (e.1, e.2) ∈ st.string_usages from he)
      have b4 := (h.inverse e.1 t).mp ((mem_suGet_iff _ _ _).mpr ⟨e.2, b3, b2⟩)
      rw [a4] at b4
      cases b4
      exact a3 b1
    · intro ht
      obtain ⟨a1, a2⟩ := (i3 t s).mp ht
      obtain ⟨x, hx, htx⟩ := (mem_suGet_iff _ _ _).mp ((h.inverse s t).mpr a1)
      refine ⟨x, (i4 s x).mpr ⟨hx, ?_⟩, htx⟩
      rintro ⟨_, b⟩
      exact a2 ⟨(s, x), mem_of_mapFind hx, b, htx⟩
  · intro m hm
    rw [cleanup_matched h] at hm
    exact absurd hm (List.not_mem_nil m)
  · intro t u ht
    exact h.tracked t u ((i3 t u).mp ht).1

theorem emit_inv {recurse : Str → Except Fault (List Str)} {st st' : Scan} {candidate : Str}
    (h : st.Inv) (he : emit recurse st candidate = .ok st') : st'.Inv := by
  unfold emit at he
  split_ifs at he with h1
  · cases he; exact h
  · split at he
    · cases he
    · split at he
      · cases he
      · next pre suffix _ prefix_result _ =>
        cases he
        have := @cleanup_inv candidate
          { st with result := st.result ++ prefix_result ++ [candidate] }
          ⟨⟨h.ok.usages, h.ok.string_usages, h.ok.matched⟩, h.inverse, h.matched_usage,
            h.tracked⟩
        exact ⟨⟨this.ok.usages, this.ok.string_usages, this.ok.matched⟩, this.inverse,
          this.matched_usage, this.tracked⟩

theorem step_inv {recurse : Str → Except Fault (List Str)} {V : List Str} {st st' : Scan}
    {c : Char} (h : st.Inv) (hs : step recurse V st c = .ok st') : st'.Inv := by
  unfold step at hs
  simp only at hs
  split at hs
  · cases hs
  · exact emit_inv (updateAll_inv c V h) hs

theorem scan_inv {recurse : Str → Except Fault (List Str)} {V : List Str} {text : Str}
    {st st' : Scan} (h : st.Inv) (hs : scan recurse V text st = .ok st') : st'.Inv := by
  induction text generalizing st with
  | nil => cases hs; exact h
  | cons c cs ih =>
    rw [scan_cons] at hs
    split at hs
    · cases hs
    · next st1 h1 => exact ih (step_inv h h1) hs

theorem Scan.Inv.reverseIndexExact {st : Scan} (h : st.Inv) : ReverseIndexExact st :=
  ⟨fun s t => (mem_suGet_iff s t _).symm.trans (h.inverse s t),
    fun _ _ hx => (h.ok.string_usages.2 _ (mem_of_mapFind hx)).2⟩

/-- C13 (reverse-index consistency): in every state a `tokenize` call reaches, which is the
state `st` after the scan of some part `pre` of its text (after the clean-up when a term was
emitted) or the state after the per-character update for the next character, the reverse
index is the exact inverse of the usage map and holds no empty set. -/
theorem reverse_index_consistent (recurse : Str → Except Fault (List Str)) (V : List Str)
    (pre : Str) (st : Scan) (h : scan recurse V pre Scan.init = .ok st) :
    ReverseIndexExact st ∧ ∀ c, ReverseIndexExact (updateAll V c st) :=
  ⟨(scan_inv Scan.init_inv h).reverseIndexExact,
    fun c => (updateAll_inv c V (scan_inv Scan.init_inv h)).reverseIndexExact⟩

/-- C13 at the scan of "ca" with the keyterms "cat", "catalog". -/
theorem reverse_index_consistent_witness :
    ∃ st, scan (fun _ => .ok []) ["cat".toList, "catalog".toList] "ca".toList Scan.init
        = .ok st ∧
      st.usages = [("cat".toList, "ca".toList), ("catalog".toList, "ca".toList)] ∧
      ReverseIndexExact st ∧
      ∀ c, ReverseIndexExact (updateAll ["cat".toList, "catalog".toList] c st) :=
  ⟨_, rfl, by decide,
    reverse_index_consistent (fun _ => .ok []) ["cat".toList, "catalog".toList] "ca".toList
      _ rfl⟩

/-! ## The candidate selection -/

theorem find_isSome_iff (a b : Str) : (find a b).isSome = true ↔ a <:+: b := by
  induction b with
  | nil =>
    unfold find
    split_ifs with h
    · simp [h]
    · simp [h]
  | cons d b ih =>
    unfold find
    rw [List.infix_cons_iff]
    split_ifs with h
    · simp [(startswith_iff _ _).mp h]
    · have h1 : ¬ a <+: d :: b := fun h2 => h ((startswith_iff _ _).mpr h2)
      simp only [Option.isSome_map', h1, false_or]
      exact ih

theorem contained_eq_false_iff (su : List (Str × List Str)) (m : Str) :
    contained su m = false ↔ ∀ e ∈ su, m <:+: e.1 → e.1 = m := by
  unfold contained
  rw [List.any_eq_false]
  constructor
  · intro h e he hm
    have := h e he
    by_contra hne
    simp [hne, (find_isSome_iff m e.1).mpr hm] at this
  · intro h e he
    by_cases hne : e.1 = m
    · simp [hne]
    · have : ¬ m <:+: e.1 := fun hm => hne (h e he hm)
      have h2 : ¬ (find m e.1).isSome = true := fun h3 => this ((find_isSome_iff m e.1).mp h3)
      simp [h2]

theorem considerMatch_of_keys {st : Scan} {m : Str}
    (h1 : (mapFind m st.string_usages).isSome = true) (h2 : (mapFind m st.usages).isSome = true)
    (candidate : Str) :
    considerMatch st candidate m
      = .ok (if passes st m = true ∧ candidate.length < m.length then m else candidate) := by
  have e1 : (mapFind m st.string_usages).isNone = false := by
    cases h : mapFind m st.string_usages <;> simp_all
  have e2 : (mapFind m st.usages).isNone = false := by
    cases h : mapFind m st.usages <;> simp_all
  unfold considerMatch passes
  simp only [e1, e2, Bool.false_eq_true, if_false]
  by_cases a1 : (suGet m st.string_usages).length > 1
  · have : ¬ (suGet m st.string_usages).length ≤ 1 := by omega
    simp [a1, this]
  · have a1' : (suGet m st.string_usages).length ≤ 1 := by omega
    simp only [a1, if_false, a1', decide_True, Bool.true_and, Bool.not_eq_true',
      gt_iff_lt]
    cases contained st.string_usages m
    · simp only [Bool.false_eq_true, if_false, true_and]
      split_ifs <;> rfl
    · simp

/-- The candidate loop returns the longest completed match that passes the two tests, the
first such in the order of the set, or what it started from. -/
theorem pickCandidate_spec (st : Scan) (ms : List Str) :
    ∀ candidate : Str,
      (∀ m ∈ ms, (mapFind m st.string_usages).isSome = true ∧
        (mapFind m st.usages).isSome = true) →
      ∃ r, pickCandidate st ms candidate = .ok r ∧
        (r = candidate ∨ (r ∈ ms ∧ passes st r = true ∧ candidate.length < r.length)) ∧
        candidate.length ≤ r.length ∧
        ∀ m ∈ ms, passes st m = true → m.length ≤ r.length := by
  induction ms with
  | nil =>
    intro candidate _
    exact ⟨candidate, rfl, Or.inl rfl, le_refl _, fun m hm => absurd hm (List.not_mem_nil m)⟩
  | cons m ms ih =>
    intro candidate hk
    obtain ⟨k1, k2⟩ := hk m (List.mem_cons_self m ms)
    unfold pickCandidate
    rw [considerMatch_of_keys k1 k2]
    simp only
    obtain ⟨r, r1, r2, r3, r4⟩ :=
      ih (if passes st m = true ∧ candidate.length < m.length then m else candidate)
        (fun x hx => hk x (List.mem_cons_of_mem m hx))
    refine ⟨r, r1, ?_, ?_, ?_⟩
    · split_ifs at r2 r3 with a
      · rcases r2 with r2 | ⟨b1, b2, b3⟩
        · exact Or.inr ⟨r2 ▸ List.mem_cons_self m ms, r2 ▸ a.1, r2 ▸ a.2⟩
        · exact Or.inr ⟨List.mem_cons_of_mem m b1, b2, by omega⟩
      · rcases r2 with r2 | ⟨b1, b2, b3⟩
        · exact Or.inl r2
        · exact Or.inr ⟨List.mem_cons_of_mem m b1, b2, b3⟩
    · split_ifs at r3 with a
      · omega
      · exact r3
    · intro x hx hp
      rcases List.mem_cons.mp hx with b | b
      · subst b
        split_ifs at r3 with a
        · exact r3
        · have : ¬ candidate.length < x.length := fun c => a ⟨hp, c⟩
          omega
      · exact r4 x b hp

theorem Scan.Inv.matched_keys {st : Scan} (h : st.Inv) {m : Str} (hm : m ∈ st.matched) :
    (mapFind m st.string_usages).isSome = true ∧ mapFind m st.usages = some m := by
  have h1 := h.matched_usage m hm
  obtain ⟨x, hx, _⟩ := (mem_suGet_iff _ _ _).mp ((h.inverse m m).mpr h1)
  exact ⟨by rw [hx]; rfl, h1⟩

theorem Scan.Inv.matched_ne_nil {st : Scan} (h : st.Inv) {m : Str} (hm : m ∈ st.matched) :
    m ≠ [] :=
  (h.tracked m m (h.matched_usage m hm)).2

theorem passes_iff_eligible {st : Scan} (h : st.Inv) {m : Str} (hm : m ∈ st.matched) :
    passes st m = true ↔ Eligible st m := by
  have h1 := h.matched_usage m hm
  have h2 : m ∈ suGet m st.string_usages := (h.inverse m m).mpr h1
  have h3 : 0 < (suGet m st.string_usages).length := List.length_pos_of_mem h2
  unfold passes Eligible
  rw [Bool.and_eq_true, Bool.not_eq_true', contained_eq_false_iff, decide_eq_true_iff]
  constructor
  · rintro ⟨a1, a2⟩
    exact ⟨m, h1, by omega, a2⟩
  · rintro ⟨u, a1, a2, a3⟩
    rw [h1] at a1
    cases a1
    exact ⟨by omega, a3⟩

/-- The candidate selection in a state that satisfies the invariant. -/
theorem pickCandidate_policy {st : Scan} (h : st.Inv) :
    ∃ candidate, pickCandidate st st.matched [] = .ok candidate ∧
      (candidate ≠ [] → candidate ∈ st.matched ∧ Eligible st candidate ∧
        ∀ m ∈ st.matched, Eligible st m → m.length ≤ candidate.length) ∧
      (candidate ≠ [] ↔ ∃ m ∈ st.matched, Eligible st m) := by
  obtain ⟨r, r1, r2, _, r4⟩ := pickCandidate_spec st st.matched []
    (fun m hm => ⟨(h.matched_keys hm).1, by rw [(h.matched_keys hm).2]; rfl⟩)
  have key : r ≠ [] → r ∈ st.matched ∧ Eligible st r := by
    intro hr
    rcases r2 with r2 | ⟨b1, b2, _⟩
    · exact absurd r2 hr
    · exact ⟨b1, (passes_iff_eligible h b1).mp b2⟩
  refine ⟨r, r1, ?_, ?_⟩
  · intro hr
    exact ⟨(key hr).1, (key hr).2,
      fun m hm he => r4 m hm ((passes_iff_eligible h hm).mpr he)⟩
  · constructor
    · intro hr
      exact ⟨r, (key hr).1, (key hr).2⟩
    · rintro ⟨m, hm, he⟩ hr
      have a1 := r4 m hm ((passes_iff_eligible h hm).mpr he)
      have a2 : 0 < m.length := List.length_pos.mpr (h.matched_ne_nil hm)
      rw [hr, List.length_nil] at a1
      omega

/-- C11 (emission policy): at every scan step, which is the state after the per-character
update for `c` following the scan of some part `pre` of the text, the candidate loop ends
without a failed assertion; a selected keyterm (a non-empty candidate) is a completed match
whose tracked substring is held by exactly one keyterm and is not a strict substring of
another tracked substring, and no completed match meeting these two conditions is longer;
a keyterm is selected exactly when some completed match meets the two conditions. -/
theorem emission_policy (recurse : Str → Except Fault (List Str)) (V : List Str) (pre : Str)
    (st : Scan) (c : Char) (h : scan recurse V pre Scan.init = .ok st) :
    ∃ candidate,
      pickCandidate (updateAll V c st) (updateAll V c st).matched [] = .ok candidate ∧
      (candidate ≠ [] → candidate ∈ (updateAll V c st).matched ∧
        Eligible (updateAll V c st) candidate ∧
        ∀ m ∈ (updateAll V c st).matched, Eligible (updateAll V c st) m →
          m.length ≤ candidate.length) ∧
      (candidate ≠ [] ↔ ∃ m ∈ (updateAll V c st).matched, Eligible (updateAll V c st) m) :=
  pickCandidate_policy (updateAll_inv c V (scan_inv Scan.init_inv h))

/-- C11 at the step for 'b' after the scan of "a", with the keyterms "a", "ab": the two
matches "a" and "ab" are completed and "ab" is selected. -/
theorem emission_policy_witness :
    ∃ st, scan (fun _ => .ok []) ["a".toList, "ab".toList] "a".toList Scan.init = .ok st ∧
      (updateAll ["a".toList, "ab".toList] 'b' st).matched = ["a".toList, "ab".toList] ∧
      ∃ candidate,
        pickCandidate (updateAll ["a".toList, "ab".toList] 'b' st)
          (updateAll ["a".toList, "ab".toList] 'b' st).matched [] = .ok candidate ∧
        (candidate ≠ [] → candidate ∈ (updateAll ["a".toList, "ab".toList] 'b' st).matched ∧
          Eligible (updateAll ["a".toList, "ab".toList] 'b' st) candidate ∧
          ∀ m ∈ (updateAll ["a".toList, "ab".toList] 'b' st).matched,
            Eligible (updateAll ["a".toList, "ab".toList] 'b' st) m →
              m.length ≤ candidate.length) ∧
        (candidate ≠ [] ↔ ∃ m ∈ (updateAll ["a".toList, "ab".toList] 'b' st).matched,
          Eligible (updateAll ["a".toList, "ab".toList] 'b' st) m) :=
  ⟨_, rfl, by decide,
    emission_policy (fun _ => .ok []) ["a".toList, "ab".toList] "a".toList _ 'b' rfl⟩

/-! ## The assertions of the candidate loop -/

theorem step_fault_inv {recurse : Str → Except Fault (List Str)} {V : List Str} {st : Scan}
    {c : Char} {e : Fault} (h : st.Inv) (hs : step recurse V st c = .error e) :
    e = .outOfRange ∨ ∃ pre, recurse pre = .error e := by
  obtain ⟨candidate, hc, _⟩ := pickCandidate_policy (updateAll_inv c V h)
  unfold step at hs
  simp only [hc] at hs
  exact emit_fault hs

theorem scan_fault_inv {recurse : Str → Except Fault (List Str)} {V : List Str} {text : Str}
    {st : Scan} {e : Fault} (h : st.Inv) (hs : scan recurse V text st = .error e) :
    e = .outOfRange ∨ ∃ pre, recurse pre = .error e := by
  induction text generalizing st with
  | nil => cases hs
  | cons c cs ih =>
    rw [scan_cons] at hs
    split at hs
    · next e' h1 => cases hs; exact step_fault_inv h h1
    · next st1 h1 => exact ih (step_inv h h1) hs

theorem tokenizeFuel_fault_inv (fuel : Nat) (text : Str) (V : List Str) {e : Fault}
    (h : tokenizeFuel fuel text V = .error e) : e = .outOfRange ∨ e = .unboundedRecursion := by
  induction fuel generalizing text e with
  | zero => cases h; exact Or.inr rfl
  | succ n ih =>
    unfold tokenizeFuel at h
    split at h
    · next e' h1 =>
      cases h
      rcases scan_fault_inv Scan.init_inv h1 with h2 | ⟨pre, h2⟩
      · exact Or.inl h2
      · exact ih pre h2
    · exact Or.inl (flush_fault h)

/-- C18 (assertion validity): for every text and every vocabulary `tokenize` does not end in
a failed assertion; at every candidate selection, which is made in the state after the
per-character update for `c` following the scan of some part `pre` of a text, the loop ends
without a fault, and every completed match is a key of the reverse index and is sent to
itself by the usage map. -/
theorem assertions_never_fail (text : Str) (V : List Str) :
    tokenize text V ≠ .error .assertionFailed ∧
    ∀ (recurse : Str → Except Fault (List Str)) (pre : Str) (st : Scan) (c : Char),
      scan recurse V pre Scan.init = .ok st →
      (∀ e, pickCandidate (updateAll V c st) (updateAll V c st).matched [] ≠ .error e) ∧
      ∀ m ∈ (updateAll V c st).matched,
        (mapFind m (updateAll V c st).string_usages).isSome = true ∧
        mapFind m (updateAll V c st).usages = some m := by
  constructor
  · intro h
    rcases tokenizeFuel_fault_inv _ _ _ h with h1 | h1 <;> cases h1
  · intro recurse pre st c h
    have hi := updateAll_inv c V (scan_inv Scan.init_inv h)
    constructor
    · intro e he
      obtain ⟨candidate, hc, _⟩ := pickCandidate_policy hi
      rw [hc] at he
      cases he
    · intro m hm
      exact hi.matched_keys hm

/-- C18 at the text "ab" with the keyterms "a", "ab", and at the step for 'b' after the scan
of "a". -/
theorem assertions_never_fail_witness :
    tokenize "ab".toList ["a".toList, "ab".toList] ≠ .error .assertionFailed ∧
    ∃ st, scan (fun _ => .ok []) ["a".toList, "ab".toList] "a".toList Scan.init = .ok st ∧
      (updateAll ["a".toList, "ab".toList] 'b' st).matched = ["a".toList, "ab".toList] ∧
      ∀ m ∈ (updateAll ["a".toList, "ab".toList] 'b' st).matched,
        (mapFind m (updateAll ["a".toList, "ab".toList] 'b' st).string_usages).isSome = true ∧
        mapFind m (updateAll ["a".toList, "ab".toList] 'b' st).usages = some m :=
  ⟨(assertions_never_fail "ab".toList ["a".toList, "ab".toList]).1, _, rfl, by decide,
    ((assertions_never_fail "ab".toList ["a".toList, "ab".toList]).2 (fun _ => .ok [])
      "a".toList _ 'b' rfl).2⟩

/-! ## The empty keyterm -/

theorem updateTerm_nil (c : Char) {st : Scan} (h : mapFind [] st.usages = none) :
    updateTerm c st [] = st := by
  unfold updateTerm
  simp [h, startswith]

theorem Scan.Inv.nil_untracked {st : Scan} (h : st.Inv) :
    mapFind [] st.usages = none ∧ [] ∉ st.matched ∧ ∀ s, [] ∉ suGet s st.string_usages := by
  have h1 : mapFind [] st.usages = none := by
    cases hu : mapFind [] st.usages with
    | none => rfl
    | some u =>
      obtain ⟨a1, a2⟩ := h.tracked [] u hu
      exact absurd (List.prefix_nil.mp a1) a2
  refine ⟨h1, ?_, ?_⟩
  · intro hm
    have := h.matched_usage [] hm
    rw [h1] at this
    cases this
  · intro s hs
    have := (h.inverse s []).mp hs
    rw [h1] at this
    cases this

theorem updateAll_insert_nil (c : Char) (V1 V2 : List Str) {st : Scan} (h : st.Inv) :
    updateAll (V1 ++ [] :: V2) c st = updateAll (V1 ++ V2) c st := by
  unfold updateAll
  rw [List.foldl_append, List.foldl_append, List.foldl_cons]
  have hi : (V1.foldl (updateTerm c) { st with sequence := st.sequence ++ [c] }).Inv :=
    foldl_updateTerm_inv c V1
      ⟨⟨h.ok.usages, h.ok.string_usages, h.ok.matched⟩, h.inverse, h.matched_usage, h.tracked⟩
  rw [updateTerm_nil c hi.nil_untracked.1]

theorem scan_insert_nil (recurse : Str → Except Fault (List Str)) (V1 V2 : List Str)
    (text : Str) {st : Scan} (h : st.Inv) :
    scan recurse (V1 ++ [] :: V2) text st = scan recurse (V1 ++ V2) text st := by
  induction text generalizing st with
  | nil => rfl
  | cons c cs ih =>
    have hstep : step recurse (V1 ++ [] :: V2) st c = step recurse (V1 ++ V2) st c := by
      unfold step
      rw [updateAll_insert_nil c V1 V2 h]
    rw [scan_cons, scan_cons, hstep]
    cases hs : step recurse (V1 ++ V2) st c with
    | error e => rfl
    | ok st' =>
      simp only
      exact ih (step_inv h hs)

theorem tokenizeFuel_insert_nil (fuel : Nat) (text : Str) (V1 V2 : List Str) :
    tokenizeFuel fuel text (V1 ++ [] :: V2) = tokenizeFuel fuel text (V1 ++ V2) := by
  induction fuel generalizing text with
  | zero => rfl
  | succ n ih =>
    unfold tokenizeFuel
    have : (fun pre => tokenizeFuel n pre (V1 ++ [] :: V2))
        = (fun pre => tokenizeFuel n pre (V1 ++ V2)) := funext (fun pre => ih pre)
    rw [this, scan_insert_nil _ V1 V2 text Scan.init_inv]

/-- C19 (an empty keyterm is inert): for every text and every vocabulary, inserting the
empty string at any position of the vocabulary does not change the result of `tokenize`;
and in every state a call reaches, with any vocabulary `V`, the empty keyterm has no usage,
is in no set of the reverse index and is not a completed match. -/
theorem empty_keyterm_inert (text : Str) (V1 V2 : List Str) :
    tokenize text (V1 ++ [] :: V2) = tokenize text (V1 ++ V2) ∧
    ∀ (recurse : Str → Except Fault (List Str)) (V : List Str) (pre : Str) (st : Scan),
      scan recurse V pre Scan.init = .ok st →
      (mapFind [] st.usages = none ∧ [] ∉ st.matched ∧
        ∀ s, [] ∉ suGet s st.string_usages) ∧
      ∀ c, mapFind [] (updateAll V c st).usages = none ∧ [] ∉ (updateAll V c st).matched ∧
        ∀ s, [] ∉ suGet s (updateAll V c st).string_usages :=
  ⟨tokenizeFuel_insert_nil (text.length + 1) text V1 V2,
    fun _ V _ _ h => ⟨(scan_inv Scan.init_inv h).nil_untracked,
      fun c => (updateAll_inv c V (scan_inv Scan.init_inv h)).nil_untracked⟩⟩

/-- C19 at the text "ab" with the empty keyterm put between the keyterms "a" and "ab". -/
theorem empty_keyterm_inert_witness :
    tokenize "ab".toList (["a".toList] ++ [] :: ["ab".toList])
      = tokenize "ab".toList (["a".toList] ++ ["ab".toList]) ∧
    ∃ st, scan (fun _ => .ok []) ["a".toList, [], "ab".toList] "a".toList Scan.init = .ok st ∧
      st.usages = [("a".toList, "a".toList), ("ab".toList, "a".toList)] ∧
      mapFind [] st.usages = none ∧ [] ∉ st.matched :=
  ⟨(empty_keyterm_inert "ab".toList ["a".toList] ["ab".toList]).1, _, rfl, by decide,
    (((empty_keyterm_inert "ab".toList ["a".toList] ["ab".toList]).2 (fun _ => .ok [])
      ["a".toList, [], "ab".toList] "a".toList _ rfl).1).1,
    (((empty_keyterm_inert "ab".toList ["a".toList] ["ab".toList]).2 (fun _ => .ok [])
      ["a".toList, [], "ab".toList] "a".toList _ rfl).1).2.1⟩

/-! ## Evaluations of the clean-up, of the split and of the flush -/

/-- C12 (the clean-up touches only subsumed entries), at the step for 'b' after the scan of
"a" with the keyterms "b", "bc", "a", "ax": "a" is emitted while "b" is a completed match
tracked as "b", which is no substring of "a"; the clean-up keeps the usage of "b" and yet
removes "b" from the completed-match set. -/
theorem cleanup_drops_unrelated_match :
    ∃ st, scan (fun _ => .ok []) ["b".toList, "bc".toList, "a".toList, "ax".toList]
        "a".toList Scan.init = .ok st ∧
      pickCandidate (updateAll ["b".toList, "bc".toList, "a".toList, "ax".toList] 'b' st)
        (updateAll ["b".toList, "bc".toList, "a".toList, "ax".toList] 'b' st).matched []
        = .ok "a".toList ∧
      "b".toList ∈ (updateAll ["b".toList, "bc".toList, "a".toList, "ax".toList] 'b' st).matched ∧
      mapFind "b".toList
        (updateAll ["b".toList, "bc".toList, "a".toList, "ax".toList] 'b' st).usages
        = some "b".toList ∧
      ¬ "b".toList <:+: "a".toList ∧
      mapFind "b".toList (cleanup "a".toList
        (updateAll ["b".toList, "bc".toList, "a".toList, "ax".toList] 'b' st)).usages
        = some "b".toList ∧
      "b".toList ∉ (cleanup "a".toList
        (updateAll ["b".toList, "bc".toList, "a".toList, "ax".toList] 'b' st)).matched ∧
      tokenize "abz".toList ["b".toList, "bc".toList, "a".toList, "ax".toList]
        = .ok ["a".toList, "bz".toList] :=
  ⟨_, rfl, by decide⟩

/-- C15 (the split target is always present), at the step for 'd' after the scan of "abc"
with the distinct non-empty keyterms "ab", "abx", "bcd": the buffer is "cd", the term
selected and passed to `rsplit` is "bcd", which does not occur in the buffer. -/
theorem rsplit_called_with_absent_term :
    ∃ st, scan (fun _ => .ok []) ["ab".toList, "abx".toList, "bcd".toList] "abc".toList
        Scan.init = .ok st ∧
      (updateAll ["ab".toList, "abx".toList, "bcd".toList] 'd' st).sequence = "cd".toList ∧
      pickCandidate (updateAll ["ab".toList, "abx".toList, "bcd".toList] 'd' st)
        (updateAll ["ab".toList, "abx".toList, "bcd".toList] 'd' st).matched []
        = .ok "bcd".toList ∧
      ¬ "bcd".toList <:+: "cd".toList ∧
      rfindPos "bcd".toList "cd".toList = none ∧
      rsplit "cd".toList "bcd".toList = .ok ("cd".toList, []) :=
  ⟨_, rfl, by decide⟩

/-- C16 (no empty tokens), at the text "a" with the distinct non-empty keyterms "a", "ab":
the first token returned is the empty string. -/
theorem flush_pushes_empty_token :
    tokenize "a".toList ["a".toList, "ab".toList] = .ok [[], "a".toList] ∧
    ([] : Str) ∈ [([] : Str), "a".toList] ∧
    ["a".toList, "ab".toList].Nodup ∧ ([] : Str) ∉ ["a".toList, "ab".toList] := by
  decide

/-! ## The recursion on the prefix -/

theorem mapErase_of_none {V : Type} {k : Str} {m : List (Str × V)}
    (h : mapFind k m = none) : mapErase k m = m := by
  induction m with
  | nil => rfl
  | cons e m ih =>
    obtain ⟨a, b⟩ := e
    simp only [mapFind] at h
    split_ifs at h with h1
    have h2 : ¬ a = k := fun h3 => h1 h3.symm
    unfold mapErase at ih ⊢
    rw [List.filter_cons_of_pos (by simpa using h2), ih h]

theorem updateTerm_usages (c : Char) (st : Scan) (x : Str) :
    (updateTerm c st x).usages =
      if x ∈ st.matched then st.usages
      else if startswith x (currentString c st x) = true then
        mapSet x (currentString c st x) st.usages
      else mapErase x st.usages := by
  unfold updateTerm currentString
  cases hu : mapFind x st.usages <;> simp only [] <;> split_ifs <;>
    first | rfl | exact (mapErase_of_none hu).symm

/-- What one keyterm update does to the completed matches and to the usage map. -/
theorem updateTerm_effect (c : Char) (st : Scan) (x : Str) :
    (updateTerm c st x).sequence = st.sequence ∧
    (∀ m, m ∈ (updateTerm c st x).matched ↔
      m ∈ st.matched ∨ (m = x ∧ x = currentString c st x)) ∧
    ∀ t u, mapFind t (updateTerm c st x).usages = some u →
      (t ≠ x ∧ mapFind t st.usages = some u) ∨
      (t = x ∧ x ∈ st.matched ∧ mapFind x st.usages = some u) ∨
      (t = x ∧ x ∉ st.matched ∧ u = currentString c st x) := by
  refine ⟨updateTerm_sequence c st x, ?_, ?_⟩
  · intro m
    unfold updateTerm currentString
    cases hu : mapFind x st.usages <;> simp only [] <;> split_ifs <;>
      (try simp only [mem_setInsert]) <;> tauto
  · intro t u
    rw [updateTerm_usages]
    by_cases htx : t = x
    · subst htx
      split_ifs with a1 a2
      · intro h; exact Or.inr (Or.inl ⟨rfl, a1, h⟩)
      · rw [mapFind_mapSet, if_pos rfl]
        intro h; cases h
        exact Or.inr (Or.inr ⟨rfl, a1, rfl⟩)
      · rw [mapFind_mapErase, if_pos rfl]
        intro h; cases h
    · split_ifs with a1 a2
      · intro h; exact Or.inl ⟨htx, h⟩
      · rw [mapFind_mapSet, if_neg htx]
        intro h; exact Or.inl ⟨htx, h⟩
      · rw [mapFind_mapErase, if_neg htx]
        intro h; exact Or.inl ⟨htx, h⟩

theorem foldl_updateTerm_sequence (c : Char) (V : List Str) (st : Scan) :
    (V.foldl (updateTerm c) st).sequence = st.sequence := by
  induction V generalizing st with
  | nil => rfl
  | cons x V ih => rw [List.foldl_cons, ih, updateTerm_sequence]

theorem updateAll_sequence (c : Char) (V : List Str) (st : Scan) :
    (updateAll V c st).sequence = st.sequence ++ [c] := by
  unfold updateAll
  rw [foldl_updateTerm_sequence]

/-- The loop over the keyterms while nothing was emitted yet: `R` are the keyterms still to
visit. -/
theorem foldl_updateTerm_anchored (c : Char) (old : Str) (V : List Str) :
    ∀ (R : List Str) (st : Scan), R.Nodup → (∀ t ∈ R, t ∈ V) →
      st.sequence = old ++ [c] → (∀ m ∈ st.matched, m <:+: old ++ [c]) →
      (∀ t u, mapFind t st.usages = some u →
        t ∈ V ∧ (t ∉ st.matched → (t ∈ R ∧ u <:+ old) ∨ (t ∉ R ∧ u <:+ old ++ [c]))) →
      Anchored V (old ++ [c]) (R.foldl (updateTerm c) st) := by
  intro R
  induction R with
  | nil =>
    intro st _ _ hs hm hu
    refine ⟨hs, hm, fun t u h => ⟨(hu t u h).1, fun ht => ?_⟩⟩
    rcases (hu t u h).2 ht with a | a
    · exact absurd a.1 (List.not_mem_nil t)
    · exact a.2
  | cons x R ih =>
    intro st hnd hV hs hm hu
    obtain ⟨e1, e2, e3⟩ := updateTerm_effect c st x
    have hnd' := List.nodup_cons.mp hnd
    have hxV : x ∈ V := hV x (List.mem_cons_self x R)
    have hcs : x ∉ st.matched → currentString c st x <:+ old ++ [c] := by
      intro hx
      unfold currentString
      cases hf : mapFind x st.usages with
      | none => exact List.suffix_append old [c]
      | some u0 =>
        rcases (hu x u0 hf).2 hx with a | a
        · obtain ⟨w, hw⟩ := a.2
          exact ⟨w, by rw [← hw, List.append_assoc]⟩
        · exact absurd (List.mem_cons_self x R) a.1
    rw [List.foldl_cons]
    apply ih (updateTerm c st x) hnd'.2 (fun t ht => hV t (List.mem_cons_of_mem x ht))
      (e1.trans hs)
    · intro m hm'
      rcases (e2 m).mp hm' with a | ⟨a1, a2⟩
      · exact hm m a
      · by_cases hx : x ∈ st.matched
        · rw [a1]; exact hm x hx
        · rw [a1, a2]; exact (hcs hx).isInfix
    · intro t u ht
      rcases e3 t u ht with ⟨a1, a2⟩ | ⟨a1, a2, a3⟩ | ⟨a1, a2, a3⟩
      · refine ⟨(hu t u a2).1, fun hnm => ?_⟩
        have hnm' : t ∉ st.matched := fun h => hnm ((e2 t).mpr (Or.inl h))
        rcases (hu t u a2).2 hnm' with b | b
        · rcases List.mem_cons.mp b.1 with b1 | b1
          · exact absurd b1 a1
          · exact Or.inl ⟨b1, b.2⟩
        · exact Or.inr ⟨fun h => b.1 (List.mem_cons_of_mem x h), b.2⟩
      · subst a1
        exact ⟨hxV, fun hnm => absurd ((e2 t).mpr (Or.inl a2)) hnm⟩
      · subst a1
        exact ⟨hxV, fun _ => Or.inr ⟨hnd'.1, a3 ▸ hcs a2⟩⟩

theorem updateAll_bounded (c : Char) {old : Str} {V : List Str} (hnd : V.Nodup) {st : Scan}
    (h : Bounded V old st) : Bounded V (old ++ [c]) (updateAll V c st) := by
  rcases h with h | ⟨h1, h2, h3⟩
  · left
    rw [updateAll_sequence]
    simp only [List.length_append, List.length_singleton]
    omega
  · right
    unfold updateAll
    apply foldl_updateTerm_anchored c old V V _ hnd (fun _ h => h)
    · simp [h1]
    · intro m hm
      exact (h2 m hm).trans (List.prefix_append old [c]).isInfix
    · intro t u ht
      exact ⟨(h3 t u ht).1, fun hnm => Or.inl ⟨(h3 t u ht).1, (h3 t u ht).2 hnm⟩⟩

theorem substr_length {s r : Str} {pos n : Nat} (h : substr s pos n = .ok r) :
    r.length ≤ s.length - pos := by
  unfold substr at h
  split_ifs at h
  cases h
  simp only [List.length_take, List.length_drop]
  omega

theorem rsplit_length {s t pre suffix : Str} (h : rsplit s t = .ok (pre, suffix)) :
    pre.length ≤ s.length ∧ suffix.length ≤ s.length := by
  unfold rsplit at h
  split at h
  · cases h
  · next p hp =>
    split at h
    · cases h
    · next q hq =>
      cases h
      have := substr_length hp
      have := substr_length hq
      omega

theorem rsplit_length_lt {s t pre suffix : Str} (ht : t ≠ []) (hocc : t <:+: s)
    (h : rsplit s t = .ok (pre, suffix)) :
    pre.length < s.length ∧ suffix.length < s.length := by
  have h1 := rfindPos_infix_isSome hocc
  cases h2 : rfindPos t s with
  | none => simp [h2] at h1
  | some i =>
    obtain ⟨e1, _⟩ := rsplit_found h2
    rw [e1] at h
    cases h
    have hb := rfindPos_bound h2
    have hl : 0 < t.length := List.length_pos.mpr ht
    simp only [List.length_take, List.length_drop]
    omega

/-- The prefix and the suffix a split made during the scan are shorter than the text scanned
so far. -/
theorem rsplit_bounded {V : List Str} {old : Str} {st : Scan} (hi : st.Inv)
    (hb : Bounded V old st) {candidate pre suffix : Str} (hm : candidate ∈ st.matched)
    (h : rsplit st.sequence candidate = .ok (pre, suffix)) :
    pre.length < old.length ∧ suffix.length < old.length := by
  rcases hb with hb | ⟨h1, h2, _⟩
  · have := rsplit_length h
    omega
  · have := rsplit_length_lt (hi.matched_ne_nil hm) (h1 ▸ h2 candidate hm) h
    rw [h1] at this
    exact this

theorem emit_agree {recurse recurse' : Str → Except Fault (List Str)} {V : List Str}
    {old : Str} {st : Scan} (hi : st.Inv) (hb : Bounded V old st) {candidate : Str}
    (hc : candidate ≠ [] → candidate ∈ st.matched)
    (hr : ∀ pre : Str, pre.length < old.length → recurse pre = recurse' pre) :
    emit recurse st candidate = emit recurse' st candidate ∧
    ∀ st', emit recurse st candidate = .ok st' → Bounded V old st' := by
  unfold emit
  by_cases h0 : candidate.length = 0
  · simp only [h0, if_true]
    exact ⟨by trivial, fun st' h => by cases h; exact hb⟩
  · have hne : candidate ≠ [] := fun h => h0 (by rw [h]; rfl)
    simp only [h0, if_false]
    cases hs : rsplit st.sequence candidate with
    | error e => exact ⟨by trivial, fun st' h => by cases h⟩
    | ok ps =>
      obtain ⟨pre, suffix⟩ := ps
      obtain ⟨b1, b2⟩ := rsplit_bounded hi hb (hc hne) hs
      simp only [hr pre b1]
      refine ⟨by trivial, fun st' h => ?_⟩
      split at h
      · cases h
      · cases h
        exact Or.inl b2

theorem step_agree {recurse recurse' : Str → Except Fault (List Str)} {V : List Str}
    (hnd : V.Nodup) {old : Str} {st : Scan} (hi : st.Inv) (hb : Bounded V old st) (c : Char)
    (hr : ∀ pre : Str, pre.length < (old ++ [c]).length → recurse pre = recurse' pre) :
    step recurse V st c = step recurse' V st c ∧
    ∀ st', step recurse V st c = .ok st' → Bounded V (old ++ [c]) st' := by
  have hi' := updateAll_inv c V hi
  obtain ⟨candidate, p1, p2, _⟩ := pickCandidate_policy hi'
  unfold step
  simp only [p1]
  exact emit_agree hi' (updateAll_bounded c hnd hb) (fun h => (p2 h).1) hr

theorem scan_agree {recurse recurse' : Str → Except Fault (List Str)} {V : List Str}
    (hnd : V.Nodup) :
    ∀ (rest old : Str) (st : Scan), st.Inv → Bounded V old st →
      (∀ pre : Str, pre.length < (old ++ rest).length → recurse pre = recurse' pre) →
      scan recurse V rest st = scan recurse' V rest st := by
  intro rest
  induction rest with
  | nil => intro old st _ _ _; rfl
  | cons c rest ih =>
    intro old st hi hb hr
    obtain ⟨s1, s2⟩ := step_agree hnd hi hb c (fun pre hp => hr pre (by
      simp only [List.length_append, List.length_cons, List.length_nil] at hp ⊢
      omega))
    rw [scan_cons, scan_cons, ← s1]
    cases hs : step recurse V st c with
    | error e => rfl
    | ok st' =>
      simp only
      exact ih (old ++ [c]) st' (step_inv hi hs) (s2 st' hs) (fun pre hp => hr pre (by
        simpa using hp))

theorem Scan.init_bounded (V : List Str) : Bounded V [] Scan.init :=
  Or.inr ⟨rfl, fun m hm => absurd hm (List.not_mem_nil m), fun t u h => by
    simp [Scan.init, mapFind] at h⟩

/-- With distinct keyterms the scan of `text` consults the recursive call only at prefixes
shorter than `text`. -/
theorem scan_recursion_shorter {V : List Str} (hnd : V.Nodup) (text : Str)
    (recurse recurse' : Str → Except Fault (List Str))
    (hr : ∀ pre : Str, pre.length < text.length → recurse pre = recurse' pre) :
    scan recurse V text Scan.init = scan recurse' V text Scan.init :=
  scan_agree hnd text [] Scan.init Scan.init_inv (Scan.init_bounded V) (by simpa using hr)

theorem tokenizeFuel_stable {V : List Str} (hnd : V.Nodup) :
    ∀ (n : Nat) (text : Str), text.length ≤ n → ∀ fuel, text.length < fuel →
      tokenizeFuel fuel text V = tokenizeFuel (text.length + 1) text V := by
  intro n
  induction n with
  | zero =>
    intro text hn fuel hf
    have : text = [] := List.length_eq_zero.mp (by omega)
    subst this
    cases fuel with
    | zero => simp at hf
    | succ f => rfl
  | succ n ih =>
    intro text hn fuel hf
    cases fuel with
    | zero => omega
    | succ f =>
      unfold tokenizeFuel
      rw [scan_recursion_shorter hnd text (fun pre => tokenizeFuel f pre V)
        (fun pre => tokenizeFuel text.length pre V)
        (fun pre hp => by
          show tokenizeFuel f pre V = tokenizeFuel text.length pre V
          rw [ih pre (by omega) f (by omega), ih pre (by omega) text.length hp])]

theorem tokenizeFuel_terminates {V : List Str} (hnd : V.Nodup) :
    ∀ (n : Nat) (text : Str), text.length ≤ n →
      tokenizeFuel (text.length + 1) text V ≠ .error .unboundedRecursion := by
  intro n
  induction n with
  | zero =>
    intro text hn
    have : text = [] := List.length_eq_zero.mp (by omega)
    subst this
    intro h
    cases h
  | succ n ih =>
    intro text hn h
    unfold tokenizeFuel at h
    rw [scan_recursion_shorter hnd text (fun pre => tokenizeFuel text.length pre V)
      (fun pre => if pre.length < text.length then tokenizeFuel text.length pre V else .ok [])
      (fun pre hp => by simp [hp])] at h
    split at h
    · next e h1 =>
      cases h
      rcases scan_fault_inv Scan.init_inv h1 with h2 | ⟨pre, h2⟩
      · cases h2
      · split_ifs at h2 with hp
        rw [tokenizeFuel_stable hnd n pre (by omega) text.length hp] at h2
        exact ih pre (by omega) h2
    · have := flush_fault h
      cases this

/-- C17 as stated is false: with the keyterm "aa" listed twice the call on the text "a"
passes the whole text "a" to the recursive call, and the recursion does not end. -/
theorem recursion_unbounded_on_repeated_keyterm :
    ¬ (∀ (text : Str) (V : List Str), RecursesOnShorter text V) := by
  intro h
  have h1 := (h "a".toList ["aa".toList, "aa".toList]).2.1
  revert h1
  decide

/-- C17, amended: for every text and every vocabulary of distinct keyterms, every recursive
call made by `tokenize text V` is on a prefix strictly shorter than `text`, so the recursion
ends and `tokenize` is total by recursion on the length of the text. -/
theorem tokenize_terminates (text : Str) (V : List Str) (hnd : V.Nodup) :
    RecursesOnShorter text V :=
  ⟨scan_recursion_shorter hnd text,
    tokenizeFuel_terminates hnd text.length text (le_refl _),
    fun fuel hf => tokenizeFuel_stable hnd text.length text (le_refl _) fuel hf⟩

/-- The amended C17 at the text "xab" with the keyterms "ab", "b". -/
theorem tokenize_terminates_witness :
    ["ab".toList, "b".toList].Nodup ∧
    tokenize "xab".toList ["ab".toList, "b".toList] = .ok ["x".toList, "ab".toList] ∧
    RecursesOnShorter "xab".toList ["ab".toList, "b".toList] :=
  ⟨by decide, by decide,
    tokenize_terminates "xab".toList ["ab".toList, "b".toList] (by decide)⟩

end Tokenizer

